import Mathlib

/-!
Verification development for the Occult-Magick repository (two C++ utilities:
`Intention_Repeater_SacredGeometry_Phi.cpp` and `WiFi_Broadcaster.cpp`).

Shallow embedding conventions:
* C++ `std::string` values are byte strings and are modelled as `List Char`.
* C++ unsigned integer arithmetic (`unsigned long long`, `size_t`) is modelled
  as `Nat`; where wrap-around can matter (the `unsigned long long freq` counter)
  the reduction `% 2 ^ 64` is written explicitly.
* The `std::unordered_map<int, Node>` is modelled as a partial map
  `Nat → Option Node`; `operator[]` insert-on-miss semantics are modelled
  explicitly where the C++ uses them.
* Fallible operations (`std::stoi`, opening a file) return `Except`/`Option`.
-/

namespace OccultMagick

/-! ## Data model and operations (embedded from the source) -/

/-- Numeric value of a digit character, as computed by the C++ expression
`c - '0'` (on digit characters). -/
def digitVal (c : Char) : Nat := c.toNat - 48

/-- Digit character of a value, as computed by the C++ expression `num + '0'`. -/
def digitChar (d : Nat) : Char := Char.ofNat (d + 48)

/-- Numeric reading of a decimal digit string (most significant digit first).
This is the spec-side meaning of "the integer a digit string denotes". -/
def strVal (s : List Char) : Nat := s.foldl (fun a c => a * 10 + digitVal c) 0

/-- A string consisting only of decimal digits. -/
def isDigitStr (s : List Char) : Bool := s.all Char.isDigit

/-- Little-endian base-10 digit list, computed with explicit fuel so that the
definition is structurally recursive (and hence evaluates inside the kernel).
Agrees with `Nat.digits 10` whenever `n ≤ fuel`. -/
def natDigitsAux : Nat → Nat → List Nat
  | _, 0 => []
  | 0, _ + 1 => []
  | fuel + 1, n + 1 => (n + 1) % 10 :: natDigitsAux fuel ((n + 1) / 10)

/-- Little-endian base-10 digit list of a natural number. -/
def natDigits (n : Nat) : List Nat := natDigitsAux n n

/-- Canonical decimal representation of a natural number: no leading zeros,
and `"0"` for zero.  Spec-side definition, used to state "returns the decimal
representation". -/
def decimalRepr (n : Nat) : List Char :=
  if n = 0 then ['0'] else ((natDigits n).map digitChar).reverse

/-- C++ `struct Node { std::string data; std::vector<int> connections; }`. -/
structure Node where
  data : List Char
  connections : List Nat

deriving DecidableEq

/-- The value-initialized `Node` that `unordered_map::operator[]` inserts on a
missing key. -/
def defaultNode : Node := ⟨[], []⟩

/-- Model of `std::unordered_map<int, Node>`: a partial map on keys. -/
def Cube := Nat → Option Node

/-- `const int NODE_COUNT = 13`. -/
def NODE_COUNT : Nat := 13

/-- The thirteen connection lists assigned in `createMetatronCube`. -/
def metatronConnections : Nat → List Nat
  | 0 => [1, 2, 3, 4, 5, 6]
  | 1 => [0, 2, 3, 4, 5, 6, 7, 8]
  | 2 => [0, 1, 3, 4, 5, 6, 9, 10]
  | 3 => [0, 1, 2, 4, 5, 6, 11, 12]
  | 4 => [0, 1, 2, 3, 5, 6, 7, 10]
  | 5 => [0, 1, 2, 3, 4, 6, 8, 9]
  | 6 => [0, 1, 2, 3, 4, 5, 11, 12]
  | 7 => [1, 4, 8, 9, 10, 11, 12]
  | 8 => [1, 5, 7, 9, 10, 11, 12]
  | 9 => [2, 5, 7, 8, 10, 11, 12]
  | 10 => [2, 4, 7, 8, 9, 11, 12]
  | 11 => [3, 6, 7, 8, 9, 10, 12]
  | 12 => [3, 6, 7, 8, 9, 10, 11]
  | _ => []

/-- `createMetatronCube`: initializes nodes 0..12 with empty data, then assigns
the thirteen connection lists. -/
def createMetatronCube : Cube :=
  fun k => if k < NODE_COUNT then some ⟨[], metatronConnections k⟩ else none

/-- `metatronCube[k].data = d`: `operator[]` inserts a value-initialized node
when the key is absent, then the `data` field is assigned. -/
def cubeSetData (c : Cube) (k : Nat) (d : List Char) : Cube :=
  fun j => if j = k then some ⟨d, ((c k).getD defaultNode).connections⟩ else c j

/-- A read `metatronCube[k]` through `operator[]`: returns the stored node, or
inserts and returns a value-initialized node when the key is absent. -/
def cubeGetOp (c : Cube) (k : Nat) : Node × Cube :=
  match c k with
  | some n => (n, c)
  | none => (defaultNode, fun j => if j = k then some defaultNode else c j)

/-- Data field of the node stored at key `k` (empty when absent). -/
def nodeData (c : Cube) (k : Nat) : List Char := ((c k).getD defaultNode).data

/-- Concatenation of the node data over the key range `[i, i + count)` in
index order. -/
def concatRange (c : Cube) (i count : Nat) : List Char :=
  ((List.range' i count).map (nodeData c)).flatten

/-- Concatenation of the thirteen node data fields in index order 0..12. -/
def cubeDataConcat (c : Cube) : List Char := concatRange c 0 NODE_COUNT

/-- Every connection index stored anywhere in the cube is below 13. -/
def connectionsBounded (c : Cube) : Prop :=
  ∀ k n, c k = some n → ∀ j ∈ n.connections, j < NODE_COUNT

/-- C++ `std::string::substr(pos, len)` (for in-range `pos`; the repeater only
calls it with `pos` at most the string length). -/
def cppSubstr (s : List Char) (pos len : Nat) : List Char := (s.drop pos).take len

/-- The 13-iteration loop of `updateMetatronCubeWithIntention`: node `i` gets
the next `chunkSize + (i < remainder ? 1 : 0)` characters of the string,
with a running offset. `count` counts the remaining iterations. -/
def updateCubeLoop (s : List Char) (chunkSize remainder : Nat) :
    Nat → Nat → Nat → Cube → Cube
  | _, 0, _, c => c
  | i, count + 1, offset, c =>
      let currentChunkSize := chunkSize + (if i < remainder then 1 else 0)
      updateCubeLoop s chunkSize remainder (i + 1) count (offset + currentChunkSize)
        (cubeSetData c i (cppSubstr s offset currentChunkSize))

/-- `updateMetatronCubeWithIntention(metatronCube, intentionMultiplied)`. -/
def updateMetatronCubeWithIntention (c : Cube) (s : List Char) : Cube :=
  updateCubeLoop s (s.length / NODE_COUNT) (s.length % NODE_COUNT) 0 NODE_COUNT 0 c

/-- The expansion loop of `allocateMemoryWithPhi`:
`while (expandedIntention.size() < ramSize) { expandedIntention += intention; multiplier++; }`.
For an empty intention the C++ loop never terminates; the model returns the
accumulator unchanged in that case (the claims only concern non-empty
intentions). -/
def expandLoop (intention : List Char) (ramSize : Nat)
    (expanded : List Char) (multiplier : Nat) : List Char × Nat :=
  if h : expanded.length < ramSize ∧ intention ≠ [] then
    expandLoop intention ramSize (expanded ++ intention) (multiplier + 1)
  else (expanded, multiplier)
termination_by ramSize - expanded.length
decreasing_by
  simp only [List.length_append]
  have hpos : 0 < intention.length := List.length_pos.mpr h.2
  omega

/-- The 13-node chunking loop of `allocateMemoryWithPhi`.  `chunkOf phiIndex`
abstracts the floating-point expression
`static_cast<size_t>(totalLength / pow(phi, phiIndex))`; every theorem proved
about this loop holds for every value of that expression.  Returns the updated
cube, the accumulated `intentionMultiplied`, and the remaining length. -/
def phiNodeLoop (chunkOf : Nat → Nat) (expanded : List Char) :
    Nat → Nat → Nat → Nat → Cube → List Char → Cube × List Char × Nat
  | _, 0, _, remaining, c, acc => (c, acc, remaining)
  | i, count + 1, phiIndex, remaining, c, acc =>
      let chunkSize := min (chunkOf phiIndex) remaining
      let chunk := cppSubstr expanded (i * chunkSize % expanded.length) chunkSize
      phiNodeLoop chunkOf expanded (i + 1) count (phiIndex + 1)
        (remaining - chunkSize) (cubeSetData c i chunk) (acc ++ chunk)

/-- `allocateMemoryWithPhi(metatronCube, intentionMultiplied, intention, ramSize, multiplier)`.
Returns the updated cube, the rebuilt `intentionMultiplied` (the C++ clears it
before the node loop), and the updated multiplier. -/
def allocateMemoryWithPhi (chunkOf : Nat → Nat) (c : Cube) (intention : List Char)
    (ramSize : Nat) (multiplier : Nat) : Cube × List Char × Nat :=
  let em := expandLoop intention ramSize intention multiplier
  let r := phiNodeLoop chunkOf em.1 0 NODE_COUNT 1 ramSize c []
  (r.1, r.2.1, em.2)

/-- `2 ^ 64`, the modulus of `unsigned long long` arithmetic. -/
def UINT64_SIZE : Nat := 2 ^ 64

/-- The inner loop of one entry of `repeatIntentionMetatronCube`: builds
`processIntention` from the data of the connected nodes.  Reads go through
`operator[]` (`cubeGetOp`), so the cube is threaded. -/
def processConnections (c : Cube) : List Nat → List Char → List Char × Cube
  | [], acc => (acc, c)
  | k :: rest, acc =>
      let nc := cubeGetOp c k
      processConnections nc.2 rest (acc ++ nc.1.data)

/-- `repeatIntentionMetatronCube(metatronCube, freq)`: iterates over the map
entries in the (unspecified) `unordered_map` iteration order `order`; for each
entry it rebuilds `processIntention` (dead afterwards), appends the decimal
form of `freq`, and increments `freq` (an `unsigned long long`, hence mod
`2 ^ 64`). -/
def repeatIntentionMetatronCube (c : Cube) (order : List Nat) (freq : Nat) :
    Cube × Nat :=
  order.foldl
    (fun st id0 =>
      let node := (st.1 id0).getD defaultNode
      let pc := processConnections st.1 node.connections []
      let _processIntention := pc.1 ++ decimalRepr st.2
      (pc.2, (st.2 + 1) % UINT64_SIZE))
    (c, freq)

/-- Chunk size of node `j` in `updateMetatronCubeWithIntention`:
`chunkSize + (j < remainder ? 1 : 0)`. -/
def chunkSz (cs r j : Nat) : Nat := cs + (if j < r then 1 else 0)

/-- Sum of the chunk sizes of `count` consecutive nodes starting at `start`. -/
def sumSz (cs r : Nat) : Nat → Nat → Nat
  | _, 0 => 0
  | start, count + 1 => chunkSz cs r start + sumSz cs r (start + 1) count

/-- Write one cell of the result vector. -/
def upd (f : Nat → Nat) (k v : Nat) : Nat → Nat := fun j => if j = k then v else f j

/-- One iteration of the inner loop of `MultiplyStrings` at indices `(i, j)`:
`mul = (num1[i]-'0')*(num2[j]-'0'); sum = mul + result[i+j+1];
result[i+j+1] = sum % 10; result[i+j] += sum / 10`. -/
def mulStep (num1 num2 : List Char) (i j : Nat) (res : Nat → Nat) : Nat → Nat :=
  let mul := digitVal (num1.getD i '0') * digitVal (num2.getD j '0')
  let sum := mul + res (i + j + 1)
  let res2 := upd res (i + j + 1) (sum % 10)
  upd res2 (i + j) (res2 (i + j) + sum / 10)

/-- The inner loop, `for (j = cnt - 1; j >= 0; --j)`. -/
def mulInnerLoop (num1 num2 : List Char) (i : Nat) :
    Nat → (Nat → Nat) → Nat → Nat
  | 0, res => res
  | j + 1, res => mulInnerLoop num1 num2 i j (mulStep num1 num2 i j res)

/-- The outer loop, `for (i = cnt - 1; i >= 0; --i)`, each pass running the
full inner loop over `num2`. -/
def mulOuterLoop (num1 num2 : List Char) : Nat → (Nat → Nat) → Nat → Nat
  | 0, res => res
  | i + 1, res => mulOuterLoop num1 num2 i (mulInnerLoop num1 num2 i num2.length res)

/-- `MultiplyStrings(num1, num2)`: run the two loops over a zeroed vector of
`len1 + len2` cells, then render, skipping leading zeros
(`if (!(resultStr.empty() && num == 0)) push_back(num + '0')`), with `"0"`
for an all-zero vector. -/
def MultiplyStrings (num1 num2 : List Char) : List Char :=
  let res := mulOuterLoop num1 num2 num1.length (fun _ => 0)
  let cells := (List.range (num1.length + num2.length)).map res
  let rendered := (cells.dropWhile (· == 0)).map digitChar
  if rendered.isEmpty then ['0'] else rendered

/-- Big-endian value of the first `n` cells of the result vector. -/
def bval (f : Nat → Nat) : Nat → Nat
  | 0 => 0
  | n + 1 => bval f n * 10 + f n

/-- The while loop of `FindSum` on the reversed (little-endian) digit lists:
the C++ walks indices `i`, `j` down from the string ends, so consuming the
reversed digit lists head-first is the same traversal.
`sum = carry (+ a-digit) (+ b-digit); push sum % 10; carry = sum / 10`,
looping while digits remain or the carry is positive. -/
def findSumAux : List Nat → List Nat → Nat → List Nat
  | [], [], carry =>
      if h : carry = 0 then []
      else carry % 10 :: findSumAux [] [] (carry / 10)
  | x :: xs, [], carry => (carry + x) % 10 :: findSumAux xs [] ((carry + x) / 10)
  | [], y :: ys, carry => (carry + y) % 10 :: findSumAux [] ys ((carry + y) / 10)
  | x :: xs, y :: ys, carry =>
      (carry + x + y) % 10 :: findSumAux xs ys ((carry + x + y) / 10)
termination_by x y carry => (x.length + y.length, carry)
decreasing_by
  · exact Prod.Lex.right _ (Nat.div_lt_self (Nat.pos_of_ne_zero h) (by norm_num))
  · exact Prod.Lex.left _ _ (by simp only [List.length_cons, List.length_nil]; omega)
  · exact Prod.Lex.left _ _ (by simp only [List.length_cons, List.length_nil]; omega)
  · exact Prod.Lex.left _ _ (by simp only [List.length_cons, List.length_nil]; omega)

/-- `FindSum(a, b)`: digits are pushed least significant first and the result
string is reversed at the end. -/
def FindSum (a b : List Char) : List Char :=
  ((findSumAux (a.reverse.map digitVal) (b.reverse.map digitVal) 0).map
    digitChar).reverse

/-- `const int ONE_MINUTE = 60`. -/
def ONE_MINUTE : Nat := 60

/-- `const int ONE_HOUR = 3600`. -/
def ONE_HOUR : Nat := 3600

/-- `setw(2)` with `setfill('0')`: zero-pad to two characters (wider values
print in full). -/
def pad2 (n : Nat) : List Char :=
  if n < 10 then '0' :: decimalRepr n else decimalRepr n

/-- `FormatTime(seconds)`: `HH:MM:SS`.  (The C++ narrows the field values to
`int`; the repeater only passes second counts far below any narrowing
boundary.) -/
def FormatTime (seconds : Nat) : List Char :=
  pad2 (seconds / ONE_HOUR) ++ [':'] ++ pad2 (seconds % ONE_HOUR / ONE_MINUTE) ++
    [':'] ++ pad2 (seconds % ONE_MINUTE)

/-- The mutable state of the repeater's main loop (counters and the interrupt
flag; console output is I/O and has no further effect on the state). -/
structure RepState where
  interrupted : Bool
  cube : Cube
  freq : Nat
  seconds : Nat
  totalIterations : List Char
  totalFreq : List Char

/-- `signalHandler`: `interrupted.store(true)`. -/
def signalHandler (s : RepState) : RepState := { s with interrupted := true }

/-- The busy-wait inside one wall-clock second: `reps` calls of
`repeatIntentionMetatronCube` (how many fit in the second is a parameter of
the model). -/
def busyLoop (order : List Nat) : Nat → Cube → Nat → Cube × Nat
  | 0, c, freq => (c, freq)
  | n + 1, c, freq =>
      let r := repeatIntentionMetatronCube c order freq
      busyLoop order n r.1 r.2

/-- One one-second iteration of the main `while (!interrupted)` loop: the
busy-wait, the counter updates (`MultiplyStrings`/`FindSum`), `++seconds`,
`freq = 0`, the console print (I/O, not modelled), and the duration check
`if (param_duration == FormatTime(seconds)) interrupted = true`. -/
def loopBody (order : List Nat) (paramDuration : List Char)
    (multiplier hashMultiplier reps : Nat) (s : RepState) : RepState :=
  let bz := busyLoop order reps s.cube s.freq
  let tf1 := MultiplyStrings (decimalRepr bz.2) (decimalRepr multiplier)
  let tf := MultiplyStrings tf1 (decimalRepr hashMultiplier)
  let ti := FindSum s.totalIterations tf
  let seconds2 := (s.seconds + 1) % UINT64_SIZE
  { interrupted := s.interrupted || (paramDuration == FormatTime seconds2),
    cube := bz.1, freq := 0, seconds := seconds2,
    totalIterations := ti, totalFreq := tf }

/-- The main repetition loop, unfolded up to `fuel` one-second iterations
(`reps` gives the busy-wait count of each iteration):
`while (!interrupted) { body; if (interrupted) break; }`. -/
def runLoop (order : List Nat) (paramDuration : List Char)
    (multiplier hashMultiplier : Nat) (reps : Nat → Nat) :
    Nat → RepState → RepState
  | 0, s => s
  | fuel + 1, s =>
      if s.interrupted then s
      else
        let s2 := loopBody order paramDuration multiplier hashMultiplier
          (reps s.seconds) s
        if s2.interrupted then s2
        else runLoop order paramDuration multiplier hashMultiplier reps fuel s2

/-- The two exceptions `std::stoi` can throw. -/
inductive StoiError where
  | invalidArgument
  | outOfRange

deriving DecidableEq

deriving instance DecidableEq for Except

/-- `INT_MAX`, the upper bound of the C++ `int` result of `stoi`. -/
def INT_MAX : Int := 2147483647

/-- `INT_MIN`, the lower bound of the C++ `int` result of `stoi`. -/
def INT_MIN : Int := -2147483648

/-- Model of `std::stoi` in base 10: skip leading whitespace, accept an
optional sign and then a non-empty run of decimal digits (trailing characters
are ignored); `invalid_argument` when no digits are found, `out_of_range`
when the value does not fit in `int`. -/
def stoi (s : List Char) : Except StoiError Int :=
  let l := s.dropWhile (fun c => c.isWhitespace)
  let sign : Bool :=
    match l with
    | '-' :: _ => true
    | _ => false
  let l2 :=
    match l with
    | '-' :: r => r
    | '+' :: r => r
    | _ => l
  let ds := l2.takeWhile Char.isDigit
  if ds.isEmpty then .error .invalidArgument
  else
    let v : Int := (if sign then -1 else 1) * (strVal ds : Int)
    if v < INT_MIN ∨ INT_MAX < v then .error .outOfRange
    else .ok v

/-- The interactive `GB RAM to Use` prompt: empty input keeps the default of
1; `stoi` is wrapped in `try`/`catch`, and both `invalid_argument` and
`out_of_range` fall back to the default of 1 GB. -/
def memSizeInteractive (input : List Char) : Int :=
  if input.isEmpty then 1
  else
    match stoi input with
    | .ok n => n
    | .error _ => 1

/-- The `--imem`/`-m` path: `numGBToUse = stoi(param_imem);` with no
`try`/`catch` — an error propagates as an uncaught exception and terminates
the process. -/
def memSizeFlag (input : List Char) : Except StoiError Int := stoi input

/-- A file system: maps a file name to its contents when the file exists and
can be opened. -/
def FS : Type := List Char → Option (List Char)

/-- `readFileContents` of the repeater: a missing file prints "File not
found" and exits (`std::exit(EXIT_FAILURE)`, modelled as `.error ()`);
otherwise the contents are read with NUL bytes skipped. -/
def readFileContents (fs : FS) (filename : List Char) :
    Except Unit (List Char) :=
  match fs filename with
  | none => .error ()
  | some contents => .ok (contents.filter (fun ch => ch != '\x00'))

/-- Substring test, `std::string::find(pat) != npos`. -/
def containsSub (pat s : List Char) : Bool :=
  s.tails.any (fun t => pat.isPrefixOf t)

/-- The broadcaster's test for a text-file input:
`intention.find(".txt") != npos or intention.find(".TXT") != npos`. -/
def containsTxt (s : List Char) : Bool :=
  containsSub ['.', 't', 'x', 't'] s || containsSub ['.', 'T', 'X', 'T'] s

/-- The broadcaster's re-prompt loop `while (!std::ifstream(intention))`:
keep asking until the entered name opens, consuming the remaining user inputs
in order.  `none` models the case where no entered name ever opens: the loop
keeps re-prompting (or spins once input is exhausted) and the broadcast phase
is never reached. -/
def findExisting (fs : FS) : List Char → List (List Char) → Option (List Char)
  | name, rest =>
      if (fs name).isSome then some name
      else
        match rest with
        | [] => none
        | n :: r => findExisting fs n r

/-- The broadcaster reads the accepted file with `getline`, appending each
line without its newline separator. -/
def concatLines (contents : List Char) : List Char :=
  contents.filter (fun ch => ch != '\n')

/-- The broadcaster's input phase: the first entered intention is used as is,
unless it names a `.txt`/`.TXT` file, in which case the program re-prompts
until an entered name opens and then appends that file's lines to the
file-name string itself (`intention += line`). -/
def broadcastIntention (fs : FS) (first : List Char)
    (rest : List (List Char)) : Option (List Char) :=
  if containsTxt first then
    match findExisting fs first rest with
    | none => none
    | some name => some (name ++ concatLines ((fs name).getD []))
  else some first

/-- A UDP datagram: destination address, destination port, payload. -/
structure Datagram where
  addr : List Char
  port : Nat
  payload : List Char

deriving DecidableEq

/-- The broadcast address `"255.255.255.255"` installed with `inet_pton`. -/
def BROADCAST_ADDR : List Char :=
  ['2', '5', '5', '.', '2', '5', '5', '.', '2', '5', '5', '.', '2', '5', '5']

/-- `const int PORT = 11111`. -/
def PORT : Nat := 11111

/-- The datagram sent by every iteration of the send loop:
`sendto(sock, intention.c_str(), intention.length(), 0, &broadcastAddr, ...)`. -/
def broadcastDatagram (intention : List Char) : Datagram :=
  ⟨BROADCAST_ADDR, PORT, intention⟩

/-- File system used by the C2 counterexample: only the file "b" exists. -/
def fsOnlyB : FS := fun n => if n = ['b'] then some ['h', 'i'] else none

/-- File system used by the C5 counterexample: the file "a.txt" exists with
contents "hi". -/
def fsATxt : FS :=
  fun n => if n = ['a', '.', 't', 'x', 't'] then some ['h', 'i'] else none

/-! ## Theorems -/

theorem natDigitsAux_eq (fuel : Nat) :
    ∀ n : Nat, n ≤ fuel → natDigitsAux fuel n = Nat.digits 10 n := by
  induction fuel with
  | zero =>
      intro n hn
      obtain rfl : n = 0 := Nat.le_zero.mp hn
      simp [natDigitsAux]
  | succ fuel ih =>
      intro n hn
      cases n with
      | zero => simp [natDigitsAux]
      | succ m =>
          rw [natDigitsAux, ih ((m + 1) / 10) (by omega),
            Nat.digits_def' (by norm_num : 1 < 10) (Nat.succ_pos m)]

theorem natDigits_eq (n : Nat) : natDigits n = Nat.digits 10 n :=
  natDigitsAux_eq n n le_rfl

theorem decimalRepr_eq_digits (n : Nat) :
    decimalRepr n =
      if n = 0 then ['0'] else ((Nat.digits 10 n).map digitChar).reverse := by
  rw [decimalRepr, natDigits_eq]

theorem isDigit_toNat_bounds {c : Char} (h : c.isDigit = true) :
    48 ≤ c.toNat ∧ c.toNat ≤ 57 := by
  simp only [Char.isDigit, Bool.and_eq_true, decide_eq_true_eq] at h
  obtain ⟨h1, h2⟩ := h
  have h1' : 48 ≤ c.val.toNat := UInt32.le_toNat_of_le (by norm_num) h1
  have h2' : c.val.toNat ≤ 57 := UInt32.toNat_le_of_le (by norm_num) h2
  unfold Char.toNat
  omega

theorem digitVal_le_nine {c : Char} (h : c.isDigit = true) : digitVal c ≤ 9 := by
  have := isDigit_toNat_bounds h
  unfold digitVal
  omega

theorem digitVal_lt_ten {c : Char} (h : c.isDigit = true) : digitVal c < 10 :=
  Nat.lt_succ_of_le (digitVal_le_nine h)

theorem digitChar_digitVal {c : Char} (h : c.isDigit = true) :
    digitChar (digitVal c) = c := by
  have hb := isDigit_toNat_bounds h
  unfold digitChar digitVal
  have : c.toNat - 48 + 48 = c.toNat := by omega
  rw [this, Char.ofNat_toNat]

theorem digitVal_digitChar {d : Nat} (h : d ≤ 9) : digitVal (digitChar d) = d := by
  interval_cases d <;> decide

theorem isDigit_digitChar {d : Nat} (h : d ≤ 9) : (digitChar d).isDigit = true := by
  interval_cases d <;> decide

theorem strVal_append (l : List Char) (c : Char) :
    strVal (l ++ [c]) = strVal l * 10 + digitVal c := by
  unfold strVal
  rw [List.foldl_append]
  rfl

/-- Reading a digit string is evaluating its reversed digit list little-endian. -/
theorem strVal_eq_ofDigits (s : List Char) :
    strVal s = Nat.ofDigits 10 (s.reverse.map digitVal) := by
  induction s using List.reverseRecOn with
  | nil => rfl
  | append_singleton l c ih =>
      rw [strVal_append, List.reverse_append, List.reverse_singleton,
        List.singleton_append, List.map_cons, Nat.ofDigits_cons, ih]
      ring

theorem strVal_cons (c : Char) (l : List Char) :
    strVal (c :: l) = digitVal c * 10 ^ l.length + strVal l := by
  rw [show c :: l = [c] ++ l from rfl, strVal_eq_ofDigits, List.reverse_append,
    List.map_append, Nat.ofDigits_append, strVal_eq_ofDigits]
  simp [strVal, digitVal]
  ring

theorem isDigitStr_mem {s : List Char} (h : isDigitStr s = true) {c : Char}
    (hc : c ∈ s) : c.isDigit = true := by
  simp only [isDigitStr, List.all_eq_true] at h
  simpa using h c hc

theorem map_digitChar_digitVal {l : List Char} (h : isDigitStr l = true) :
    l.map (fun x => digitChar (digitVal x)) = l := by
  induction l with
  | nil => rfl
  | cons a as ih =>
      have ha : a.isDigit = true := isDigitStr_mem h (List.mem_cons_self a as)
      have has : isDigitStr as = true := by
        simp only [isDigitStr, List.all_cons, Bool.and_eq_true] at h
        exact h.2
      rw [List.map_cons, digitChar_digitVal ha, ih has]

/-- A canonical digit string (no leading zero unless it is exactly "0")
is the decimal representation of its value. -/
theorem decimalRepr_strVal (s : List Char) (hd : isDigitStr s = true)
    (hne : s ≠ []) (hcanon : s = ['0'] ∨ s.head? ≠ some '0') :
    decimalRepr (strVal s) = s := by
  rcases hcanon with h0 | hlead
  · subst h0; rfl
  · obtain ⟨c, t, rfl⟩ := List.exists_cons_of_ne_nil hne
    have hcd : c.isDigit = true := isDigitStr_mem hd (List.mem_cons_self c t)
    have hcne : digitVal c ≠ 0 := by
      intro h
      apply hlead
      have hcc := digitChar_digitVal hcd
      rw [h] at hcc
      simp only [List.head?_cons, Option.some.injEq]
      rw [← hcc]; rfl
    have hval : strVal (c :: t) ≠ 0 := by
      rw [strVal_cons]
      have hp : 0 < 10 ^ t.length := Nat.pos_pow_of_pos _ (by norm_num)
      have hm : 0 < digitVal c * 10 ^ t.length :=
        Nat.mul_pos (Nat.pos_of_ne_zero hcne) hp
      omega
    have hmap : ∀ l ∈ (c :: t).reverse.map digitVal, l < 10 := by
      intro l hl
      obtain ⟨x, hx, rfl⟩ := List.mem_map.mp hl
      exact digitVal_lt_ten (isDigitStr_mem hd (List.mem_reverse.mp hx))
    have hlastq : ((c :: t).reverse.map digitVal).getLast? = some (digitVal c) := by
      rw [List.getLast?_map, List.getLast?_reverse, List.head?_cons]
      rfl
    have hlast : ∀ h : (c :: t).reverse.map digitVal ≠ [],
        ((c :: t).reverse.map digitVal).getLast h ≠ 0 := by
      intro h
      rw [List.getLast?_eq_getLast _ h] at hlastq
      rw [Option.some.inj hlastq]
      exact hcne
    rw [decimalRepr_eq_digits, if_neg hval, strVal_eq_ofDigits,
      Nat.digits_ofDigits 10 (by norm_num) _ hmap hlast, List.map_map,
      List.map_reverse, List.reverse_reverse]
    have hmid := map_digitChar_digitVal (l := c :: t) hd
    simpa [Function.comp] using hmid

theorem take_add_append (a b : Nat) (l : List Char) :
    l.take (a + b) = l.take a ++ (l.drop a).take b := by
  induction a generalizing l with
  | zero => simp
  | succ a ih =>
      cases l with
      | nil => simp
      | cons x xs =>
          rw [Nat.succ_add, List.take_succ_cons, List.take_succ_cons,
            List.drop_succ_cons, ih xs, List.cons_append]

theorem cppSubstr_split (s : List Char) (o a b : Nat) :
    cppSubstr s o a ++ cppSubstr s (o + a) b = cppSubstr s o (a + b) := by
  unfold cppSubstr
  rw [take_add_append a b (s.drop o), ← List.drop_drop]

theorem cppSubstr_length (s : List Char) (pos len : Nat) :
    (cppSubstr s pos len).length = min len (s.length - pos) := by
  unfold cppSubstr
  rw [List.length_take, List.length_drop]

theorem cppSubstr_length_le (s : List Char) (pos len : Nat) :
    (cppSubstr s pos len).length ≤ len := by
  rw [cppSubstr_length]
  exact Nat.min_le_left _ _

theorem cubeSetData_ne (c : Cube) (k : Nat) (d : List Char) {j : Nat}
    (h : j ≠ k) : cubeSetData c k d j = c j := by
  simp [cubeSetData, h]

theorem cubeSetData_self (c : Cube) (k : Nat) (d : List Char) :
    cubeSetData c k d k = some ⟨d, ((c k).getD defaultNode).connections⟩ := by
  simp [cubeSetData]

theorem cubeGetOp_ne (c : Cube) (k : Nat) {j : Nat} (h : j ≠ k) :
    (cubeGetOp c k).2 j = c j := by
  unfold cubeGetOp
  cases hck : c k with
  | some n => rfl
  | none => simp [h]

theorem cubeGetOp_bounded {c : Cube} (hb : connectionsBounded c) (k : Nat) :
    connectionsBounded (cubeGetOp c k).2 := by
  unfold cubeGetOp
  cases hck : c k with
  | some n => exact hb
  | none =>
      intro k' n' hk' j hj
      by_cases hkk : k' = k
      · subst hkk
        have hsome : some defaultNode = some n' := by simpa using hk'
        have hn : n' = defaultNode := (Option.some.inj hsome).symm
        rw [hn] at hj
        simp [defaultNode] at hj
      · have hck' : c k' = some n' := by simpa [hkk] using hk'
        exact hb k' n' hck' j hj

theorem updateCubeLoop_preserve (s : List Char) (cs r : Nat) :
    ∀ (count i offset : Nat) (c : Cube) (k : Nat), k < i ∨ i + count ≤ k →
      updateCubeLoop s cs r i count offset c k = c k := by
  intro count
  induction count with
  | zero => intro i offset c k _; rfl
  | succ n ih =>
      intro i offset c k hk
      show updateCubeLoop s cs r (i + 1) n _ (cubeSetData c i _) k = c k
      rw [ih (i + 1) _ _ k (by omega)]
      exact cubeSetData_ne c i _ (by omega)

theorem phiNodeLoop_preserve (chunkOf : Nat → Nat) (e : List Char) :
    ∀ (count i phiIndex remaining : Nat) (c : Cube) (acc : List Char) (k : Nat),
      k < i ∨ i + count ≤ k →
      (phiNodeLoop chunkOf e i count phiIndex remaining c acc).1 k = c k := by
  intro count
  induction count with
  | zero => intro i phiIndex remaining c acc k _; rfl
  | succ n ih =>
      intro i phiIndex remaining c acc k hk
      show (phiNodeLoop chunkOf e (i + 1) n _ _ (cubeSetData c i _) _).1 k = c k
      rw [ih (i + 1) _ _ _ _ k (by omega)]
      exact cubeSetData_ne c i _ (by omega)

theorem processConnections_preserve :
    ∀ (ks : List Nat) (c : Cube) (acc : List Char) (k : Nat),
      (∀ j ∈ ks, j < NODE_COUNT) → ¬ k < NODE_COUNT →
      (processConnections c ks acc).2 k = c k := by
  intro ks
  induction ks with
  | nil => intro c acc k _ _; rfl
  | cons k0 rest ih =>
      intro c acc k hks hk
      show (processConnections (cubeGetOp c k0).2 rest _).2 k = c k
      rw [ih _ _ k (fun j hj => hks j (List.mem_cons_of_mem _ hj)) hk]
      exact cubeGetOp_ne c k0 (by
        have := hks k0 (List.mem_cons_self _ _)
        omega)

theorem processConnections_bounded {c : Cube} (hb : connectionsBounded c) :
    ∀ (ks : List Nat) (acc : List Char),
      connectionsBounded (processConnections c ks acc).2 := by
  intro ks
  induction ks generalizing c hb with
  | nil => intro acc; exact hb
  | cons k0 rest ih =>
      intro acc
      exact ih (cubeGetOp_bounded hb k0) _

theorem repeatIntention_cons (c : Cube) (a : Nat) (rest : List Nat) (freq : Nat) :
    repeatIntentionMetatronCube c (a :: rest) freq =
      repeatIntentionMetatronCube
        (processConnections c (((c a).getD defaultNode).connections) []).2
        rest ((freq + 1) % UINT64_SIZE) := rfl

theorem nodeConnections_bounded {c : Cube} (hb : connectionsBounded c) (a : Nat) :
    ∀ j ∈ ((c a).getD defaultNode).connections, j < NODE_COUNT := by
  cases hca : c a with
  | some n =>
      intro j hj
      exact hb a n hca j (by simpa [hca] using hj)
  | none =>
      intro j hj
      simp [hca, defaultNode] at hj

theorem repeatIntention_preserve :
    ∀ (order : List Nat) (c : Cube) (freq : Nat), connectionsBounded c →
      ∀ k, ¬ k < NODE_COUNT →
      (repeatIntentionMetatronCube c order freq).1 k = c k := by
  intro order
  induction order with
  | nil => intro c freq _ k _; rfl
  | cons a rest ih =>
      intro c freq hb k hk
      rw [repeatIntention_cons]
      rw [ih _ _ (processConnections_bounded hb _ _) k hk]
      exact processConnections_preserve _ c [] k (nodeConnections_bounded hb a) hk

theorem createMetatronCube_bounded : connectionsBounded createMetatronCube := by
  intro k n hk j hj
  unfold createMetatronCube at hk
  split at hk
  · next h =>
      obtain rfl : (⟨[], metatronConnections k⟩ : Node) = n := by
        exact Option.some.inj hk
      unfold NODE_COUNT at h ⊢
      interval_cases k <;> simp_all [metatronConnections] <;> omega
  · exact absurd hk (by simp)

/-- C7: `createMetatronCube` returns a fixed, fully initialized 13-node
adjacency table: exactly the node indices 0 through 12 are present, every
node's data field is the empty string, every connection index listed for a
node lies in `[0, 13)` and differs from that node's own index; and none of the
later operations (`allocateMemoryWithPhi`, `updateMetatronCubeWithIntention`,
`repeatIntentionMetatronCube`) ever adds a node at an index outside 0..12
(keys `k ≥ 13` are left exactly as they were, hence absent). -/
theorem createMetatronCube_spec :
    (∀ k : Nat, (createMetatronCube k).isSome ↔ k < 13) ∧
    (∀ (k : Nat) (n : Node), createMetatronCube k = some n →
      n.data = [] ∧ ∀ j ∈ n.connections, j < 13 ∧ j ≠ k) ∧
    (∀ (chunkOf : Nat → Nat) (c : Cube) (intention : List Char)
        (ramSize multiplier : Nat) (k : Nat), ¬ k < 13 →
      (allocateMemoryWithPhi chunkOf c intention ramSize multiplier).1 k = c k) ∧
    (∀ (c : Cube) (s : List Char) (k : Nat), ¬ k < 13 →
      updateMetatronCubeWithIntention c s k = c k) ∧
    (∀ (c : Cube) (order : List Nat) (freq : Nat), connectionsBounded c →
      ∀ k, ¬ k < 13 → (repeatIntentionMetatronCube c order freq).1 k = c k) := by
  refine ⟨?_, ?_, ?_, ?_, ?_⟩
  · intro k
    unfold createMetatronCube NODE_COUNT
    by_cases h : k < 13 <;> simp [h]
  · intro k n hk
    unfold createMetatronCube at hk
    split at hk
    · next h =>
        obtain rfl : (⟨[], metatronConnections k⟩ : Node) = n := Option.some.inj hk
        refine ⟨rfl, ?_⟩
        unfold NODE_COUNT at h
        interval_cases k <;> decide
    · exact absurd hk (by simp)
  · intro chunkOf c intention ramSize multiplier k hk
    unfold allocateMemoryWithPhi
    exact phiNodeLoop_preserve chunkOf
      (expandLoop intention ramSize intention multiplier).1 NODE_COUNT 0 1
      ramSize c [] k (Or.inr (by unfold NODE_COUNT; omega))
  · intro c s k hk
    unfold updateMetatronCubeWithIntention
    exact updateCubeLoop_preserve s (s.length / NODE_COUNT)
      (s.length % NODE_COUNT) NODE_COUNT 0 0 c k
      (Or.inr (by unfold NODE_COUNT; omega))
  · intro c order freq hb k hk
    exact repeatIntention_preserve order c freq hb k (by unfold NODE_COUNT; omega)

/-- Witness for C7: the preservation conjuncts applied at the program's own
cube and a concrete out-of-range key. -/
theorem createMetatronCube_spec_witness :
    (createMetatronCube 5).isSome ∧
    updateMetatronCubeWithIntention createMetatronCube ['a', 'b'] 13 =
      createMetatronCube 13 ∧
    (repeatIntentionMetatronCube createMetatronCube
      [0, 1, 2, 3, 4, 5, 6, 7, 8, 9, 10, 11, 12] 0).1 20 = createMetatronCube 20 := by
  refine ⟨(createMetatronCube_spec.1 5).mpr (by omega), ?_, ?_⟩
  · exact createMetatronCube_spec.2.2.2.1 createMetatronCube ['a', 'b'] 13 (by omega)
  · exact createMetatronCube_spec.2.2.2.2 createMetatronCube _ 0
      createMetatronCube_bounded 20 (by omega)

theorem sumSz_eq (cs r : Nat) :
    ∀ (count start : Nat),
      sumSz cs r start count = count * cs + (min (start + count) r - min start r) := by
  intro count
  induction count with
  | zero => intro start; simp [sumSz]
  | succ n ih =>
      intro start
      show chunkSz cs r start + sumSz cs r (start + 1) n = _
      rw [ih (start + 1)]
      by_cases h : start < r <;> simp [chunkSz, h, Nat.succ_mul] <;> omega

theorem updateCubeLoop_get (s : List Char) (cs r : Nat) :
    ∀ (count i offset : Nat) (c : Cube) (k : Nat), i ≤ k → k < i + count →
      nodeData (updateCubeLoop s cs r i count offset c) k =
        cppSubstr s (offset + sumSz cs r i (k - i)) (chunkSz cs r k) := by
  intro count
  induction count with
  | zero => intro i offset c k h1 h2; omega
  | succ n ih =>
      intro i offset c k h1 h2
      show nodeData (updateCubeLoop s cs r (i + 1) n _ (cubeSetData c i _)) k = _
      by_cases hk : k = i
      · subst hk
        unfold nodeData
        rw [updateCubeLoop_preserve s cs r n (k + 1) _ _ k (by omega),
          cubeSetData_self]
        simp [sumSz, chunkSz]
      · rw [ih (i + 1) _ _ k (by omega) (by omega)]
        have hki : k - i = (k - (i + 1)) + 1 := by omega
        congr 1
        rw [hki]
        show offset + chunkSz cs r i + sumSz cs r (i + 1) (k - (i + 1)) =
          offset + sumSz cs r i ((k - (i + 1)) + 1)
        show _ = offset + (chunkSz cs r i + sumSz cs r (i + 1) (k - (i + 1)))
        omega

theorem updateCubeLoop_concat (s : List Char) (cs r : Nat) :
    ∀ (count i offset : Nat) (c : Cube),
      concatRange (updateCubeLoop s cs r i count offset c) i count =
        cppSubstr s offset (sumSz cs r i count) := by
  intro count
  induction count with
  | zero => intro i offset c; simp [concatRange, sumSz, cppSubstr]
  | succ n ih =>
      intro i offset c
      rw [concatRange, List.range'_succ, List.map_cons, List.flatten_cons]
      show nodeData (updateCubeLoop s cs r (i + 1) n _ (cubeSetData c i _)) i ++
        concatRange (updateCubeLoop s cs r (i + 1) n _ (cubeSetData c i _)) (i + 1) n = _
      rw [ih (i + 1) _ _]
      unfold nodeData
      rw [updateCubeLoop_preserve s cs r n (i + 1) _ _ i (by omega),
        cubeSetData_self]
      show cppSubstr s offset (chunkSz cs r i) ++
        cppSubstr s (offset + chunkSz cs r i) (sumSz cs r (i + 1) n) = _
      rw [cppSubstr_split]
      rfl

/-- C9: for every string `s` (and any starting cube),
`updateMetatronCubeWithIntention` partitions `s` exactly across the 13 nodes:
concatenating the thirteen node data fields in index order 0..12 yields `s`
character for character, and the lengths of any two chunks differ by at
most 1. -/
theorem updateMetatronCube_partition (c : Cube) (s : List Char) :
    cubeDataConcat (updateMetatronCubeWithIntention c s) = s ∧
    ∀ i j, i < 13 → j < 13 →
      (nodeData (updateMetatronCubeWithIntention c s) i).length ≤
        (nodeData (updateMetatronCubeWithIntention c s) j).length + 1 := by
  have hcr := Nat.div_add_mod s.length 13
  have hrlt : s.length % 13 < 13 := Nat.mod_lt _ (by norm_num)
  have hsum : ∀ count, count ≤ 13 →
      sumSz (s.length / 13) (s.length % 13) 0 count ≤ s.length := by
    intro count hcount
    rw [sumSz_eq]
    have hmul : count * (s.length / 13) ≤ 13 * (s.length / 13) :=
      Nat.mul_le_mul_right _ hcount
    omega
  have hget : ∀ k, k < 13 →
      nodeData (updateMetatronCubeWithIntention c s) k =
        cppSubstr s (sumSz (s.length / 13) (s.length % 13) 0 k)
          (chunkSz (s.length / 13) (s.length % 13) k) := by
    intro k hk
    unfold updateMetatronCubeWithIntention NODE_COUNT
    rw [updateCubeLoop_get s _ _ 13 0 0 c k (by omega) (by omega)]
    simp
  have hlen : ∀ k, k < 13 →
      (nodeData (updateMetatronCubeWithIntention c s) k).length =
        chunkSz (s.length / 13) (s.length % 13) k := by
    intro k hk
    rw [hget k hk, cppSubstr_length]
    have hk1 : sumSz (s.length / 13) (s.length % 13) 0 k +
        chunkSz (s.length / 13) (s.length % 13) k =
        sumSz (s.length / 13) (s.length % 13) 0 (k + 1) := by
      rw [sumSz_eq, sumSz_eq, chunkSz]
      have hmul : (k + 1) * (s.length / 13) = k * (s.length / 13) + s.length / 13 := by
        ring
      by_cases h : k < s.length % 13 <;> simp [h] <;> omega
    have := hsum (k + 1) (by omega)
    omega
  constructor
  · unfold cubeDataConcat updateMetatronCubeWithIntention NODE_COUNT
    rw [updateCubeLoop_concat s _ _ 13 0 0 c]
    unfold cppSubstr
    rw [List.drop_zero]
    have h13 : sumSz (s.length / 13) (s.length % 13) 0 13 = s.length := by
      rw [sumSz_eq]
      omega
    rw [h13, List.take_length]
  · intro i j hi hj
    rw [hlen i hi, hlen j hj]
    unfold chunkSz
    split_ifs <;> omega

/-- Witness for C9 at a concrete cube and string. -/
theorem updateMetatronCube_partition_witness :
    cubeDataConcat (updateMetatronCubeWithIntention createMetatronCube
      ['l', 'o', 'v', 'e']) = ['l', 'o', 'v', 'e'] ∧
    (nodeData (updateMetatronCubeWithIntention createMetatronCube
      ['l', 'o', 'v', 'e']) 0).length ≤
      (nodeData (updateMetatronCubeWithIntention createMetatronCube
        ['l', 'o', 'v', 'e']) 12).length + 1 :=
  ⟨(updateMetatronCube_partition createMetatronCube ['l', 'o', 'v', 'e']).1,
    (updateMetatronCube_partition createMetatronCube ['l', 'o', 'v', 'e']).2
      0 12 (by decide) (by decide)⟩

theorem phiNodeLoop_len (chunkOf : Nat → Nat) (e : List Char) :
    ∀ (count i phiIndex remaining : Nat) (c : Cube) (acc : List Char),
      ((phiNodeLoop chunkOf e i count phiIndex remaining c acc).2.1).length ≤
        acc.length + remaining := by
  intro count
  induction count with
  | zero => intro i phiIndex remaining c acc; simp [phiNodeLoop]
  | succ n ih =>
      intro i phiIndex remaining c acc
      show ((phiNodeLoop chunkOf e (i + 1) n _ _ _ (acc ++ _)).2.1).length ≤ _
      refine le_trans (ih _ _ _ _ _) ?_
      rw [List.length_append]
      have h1 := cppSubstr_length_le e
        (i * min (chunkOf phiIndex) remaining % e.length)
        (min (chunkOf phiIndex) remaining)
      have h2 : min (chunkOf phiIndex) remaining ≤ remaining := Nat.min_le_right _ _
      omega

theorem phiNodeLoop_acc (chunkOf : Nat → Nat) (e : List Char) :
    ∀ (count i phiIndex remaining : Nat) (c : Cube) (acc : List Char),
      (phiNodeLoop chunkOf e i count phiIndex remaining c acc).2.1 =
        acc ++ concatRange (phiNodeLoop chunkOf e i count phiIndex remaining c acc).1
          i count := by
  intro count
  induction count with
  | zero => intro i phiIndex remaining c acc; simp [phiNodeLoop, concatRange]
  | succ n ih =>
      intro i phiIndex remaining c acc
      have step : phiNodeLoop chunkOf e i (n + 1) phiIndex remaining c acc =
          phiNodeLoop chunkOf e (i + 1) n (phiIndex + 1)
            (remaining - min (chunkOf phiIndex) remaining)
            (cubeSetData c i (cppSubstr e
              (i * min (chunkOf phiIndex) remaining % e.length)
              (min (chunkOf phiIndex) remaining)))
            (acc ++ cppSubstr e
              (i * min (chunkOf phiIndex) remaining % e.length)
              (min (chunkOf phiIndex) remaining)) := rfl
      rw [step, ih]
      conv_rhs => rw [concatRange, List.range'_succ, List.map_cons, List.flatten_cons]
      conv_lhs => rw [concatRange]
      have hni : nodeData (phiNodeLoop chunkOf e (i + 1) n (phiIndex + 1)
          (remaining - min (chunkOf phiIndex) remaining)
          (cubeSetData c i (cppSubstr e
            (i * min (chunkOf phiIndex) remaining % e.length)
            (min (chunkOf phiIndex) remaining)))
          (acc ++ cppSubstr e (i * min (chunkOf phiIndex) remaining % e.length)
            (min (chunkOf phiIndex) remaining))).1 i =
          cppSubstr e (i * min (chunkOf phiIndex) remaining % e.length)
            (min (chunkOf phiIndex) remaining) := by
        unfold nodeData
        rw [phiNodeLoop_preserve chunkOf e n (i + 1) _ _ _ _ i (Or.inl (by omega)),
          cubeSetData_self]
        rfl
      rw [hni, List.append_assoc]

/-- C6: for every non-empty intention and positive `ramSize`,
`allocateMemoryWithPhi` terminates (the Lean model is a total function; the
expansion loop is well-founded on `ramSize` minus the accumulated length) and
the golden-ratio partition is bounded: the 13 chunk sizes taken from the nodes
sum to at most `ramSize` and the resulting `intentionMultiplied` has length at
most `ramSize`.  Proved for every value `chunkOf` of the floating-point chunk
expression. -/
theorem allocateMemoryWithPhi_bounded (chunkOf : Nat → Nat) (c : Cube)
    (intention : List Char) (ramSize multiplier : Nat)
    (hne : intention ≠ []) (hpos : 0 < ramSize) :
    ((allocateMemoryWithPhi chunkOf c intention ramSize multiplier).2.1).length ≤
      ramSize ∧
    ((List.range' 0 NODE_COUNT).map (fun k =>
      (nodeData (allocateMemoryWithPhi chunkOf c intention ramSize multiplier).1
        k).length)).sum ≤ ramSize := by
  constructor
  · show ((phiNodeLoop chunkOf (expandLoop intention ramSize intention multiplier).1
      0 NODE_COUNT 1 ramSize c []).2.1).length ≤ ramSize
    have hlen := phiNodeLoop_len chunkOf
      (expandLoop intention ramSize intention multiplier).1 NODE_COUNT 0 1 ramSize c []
    simpa using hlen
  · show ((List.range' 0 NODE_COUNT).map (fun k =>
      (nodeData (phiNodeLoop chunkOf
        (expandLoop intention ramSize intention multiplier).1 0 NODE_COUNT 1
        ramSize c []).1 k).length)).sum ≤ ramSize
    have hacc := phiNodeLoop_acc chunkOf
      (expandLoop intention ramSize intention multiplier).1 NODE_COUNT 0 1 ramSize c []
    have hlen := phiNodeLoop_len chunkOf
      (expandLoop intention ramSize intention multiplier).1 NODE_COUNT 0 1 ramSize c []
    rw [hacc] at hlen
    simp only [List.nil_append, List.length_nil, Nat.zero_add] at hlen
    have hflat : (concatRange (phiNodeLoop chunkOf
        (expandLoop intention ramSize intention multiplier).1 0 NODE_COUNT 1 ramSize
        c []).1 0 NODE_COUNT).length =
        ((List.range' 0 NODE_COUNT).map (fun k =>
          (nodeData (phiNodeLoop chunkOf
            (expandLoop intention ramSize intention multiplier).1 0 NODE_COUNT 1
            ramSize c []).1 k).length)).sum := by
      rw [concatRange, List.length_flatten, List.map_map]
      rfl
    rw [hflat] at hlen
    exact hlen

/-- Witness for C6 at concrete inputs. -/
theorem allocateMemoryWithPhi_bounded_witness :
    ((allocateMemoryWithPhi (fun p => 8 / 2 ^ p) createMetatronCube
      ['o', 'm'] 8 0).2.1).length ≤ 8 ∧
    ((List.range' 0 NODE_COUNT).map (fun k =>
      (nodeData (allocateMemoryWithPhi (fun p => 8 / 2 ^ p) createMetatronCube
        ['o', 'm'] 8 0).1 k).length)).sum ≤ 8 :=
  allocateMemoryWithPhi_bounded (fun p => 8 / 2 ^ p) createMetatronCube
    ['o', 'm'] 8 0 (by decide) (by decide)

theorem cubeGetOp_present {c : Cube} {k : Nat} (h : (c k).isSome) :
    (cubeGetOp c k).2 = c := by
  unfold cubeGetOp
  cases hck : c k with
  | some n => rfl
  | none => rw [hck] at h; simp at h

theorem processConnections_present :
    ∀ (ks : List Nat) (c : Cube) (acc : List Char),
      (∀ j ∈ ks, (c j).isSome) → (processConnections c ks acc).2 = c := by
  intro ks
  induction ks with
  | nil => intro c acc _; rfl
  | cons k0 rest ih =>
      intro c acc h
      show (processConnections (cubeGetOp c k0).2 rest _).2 = c
      rw [cubeGetOp_present (h k0 (List.mem_cons_self _ _))]
      exact ih c _ (fun j hj => h j (List.mem_cons_of_mem _ hj))

theorem repeatIntention_run :
    ∀ (order : List Nat) (c : Cube) (freq : Nat), freq < UINT64_SIZE →
      (∀ id0 ∈ order, ∀ j ∈ ((c id0).getD defaultNode).connections, (c j).isSome) →
      (repeatIntentionMetatronCube c order freq).1 = c ∧
      (repeatIntentionMetatronCube c order freq).2 =
        (freq + order.length) % UINT64_SIZE := by
  intro order
  induction order with
  | nil =>
      intro c freq hfreq _
      refine ⟨rfl, ?_⟩
      show freq = (freq + 0) % UINT64_SIZE
      rw [Nat.add_zero, Nat.mod_eq_of_lt hfreq]
  | cons a rest ih =>
      intro c freq hfreq h
      rw [repeatIntention_cons,
        processConnections_present _ _ _ (h a (List.mem_cons_self _ _))]
      obtain ⟨h1, h2⟩ := ih c ((freq + 1) % UINT64_SIZE)
        (Nat.mod_lt _ (by unfold UINT64_SIZE; positivity))
        (fun id0 hid => h id0 (List.mem_cons_of_mem _ hid))
      refine ⟨h1, ?_⟩
      rw [h2, Nat.mod_add_mod, List.length_cons]
      congr 1
      omega

/-- C10 (amended): a call to `repeatIntentionMetatronCube` on a cube whose
entries are enumerated by an `order` of length 13, with `freq + 13` still
representable in `unsigned long long`, increases `freq` by exactly 13 (one
increment per node entry) and leaves the cube itself unchanged: every node's
data string and connection list is the same after the call (the connection
reads all hit present keys, so `operator[]` inserts nothing).  In general the
increment is 13 only modulo `2 ^ 64`. -/
theorem repeatIntentionMetatronCube_spec (c : Cube) (order : List Nat)
    (freq : Nat) (horder : order.length = 13)
    (hreads : ∀ id0 ∈ order, ∀ j ∈ ((c id0).getD defaultNode).connections,
      (c j).isSome)
    (hfreq : freq + 13 < UINT64_SIZE) :
    (repeatIntentionMetatronCube c order freq).1 = c ∧
    (repeatIntentionMetatronCube c order freq).2 = freq + 13 := by
  obtain ⟨h1, h2⟩ := repeatIntention_run order c freq (by omega) hreads
  refine ⟨h1, ?_⟩
  rw [h2, horder, Nat.mod_eq_of_lt hfreq]

/-- Counterexample to C10 as literally stated: `freq` is an
`unsigned long long`, so the call at `freq = 2 ^ 64 - 1` wraps around and does
not increase the counter by 13. -/
theorem repeatIntentionMetatronCube_cex :
    (repeatIntentionMetatronCube createMetatronCube
      [0, 1, 2, 3, 4, 5, 6, 7, 8, 9, 10, 11, 12] (2 ^ 64 - 1)).2 = 12 ∧
    ¬ (repeatIntentionMetatronCube createMetatronCube
      [0, 1, 2, 3, 4, 5, 6, 7, 8, 9, 10, 11, 12] (2 ^ 64 - 1)).2 =
        2 ^ 64 - 1 + 13 := by
  constructor
  · decide
  · decide

/-- Witness for C10 at the program's own cube, the natural key order and
`freq = 0`. -/
theorem repeatIntentionMetatronCube_spec_witness :
    (repeatIntentionMetatronCube createMetatronCube
      [0, 1, 2, 3, 4, 5, 6, 7, 8, 9, 10, 11, 12] 0).1 = createMetatronCube ∧
    (repeatIntentionMetatronCube createMetatronCube
      [0, 1, 2, 3, 4, 5, 6, 7, 8, 9, 10, 11, 12] 0).2 = 0 + 13 :=
  repeatIntentionMetatronCube_spec createMetatronCube
    [0, 1, 2, 3, 4, 5, 6, 7, 8, 9, 10, 11, 12] 0 (by decide) (by decide)
    (by decide)

theorem upd_self (f : Nat → Nat) (k v : Nat) : upd f k v k = v := by simp [upd]

theorem upd_ne (f : Nat → Nat) (k v : Nat) {j : Nat} (h : j ≠ k) :
    upd f k v j = f j := by simp [upd, h]

theorem bval_congr (f g : Nat → Nat) :
    ∀ n, (∀ j, j < n → f j = g j) → bval f n = bval g n := by
  intro n
  induction n with
  | zero => intro _; rfl
  | succ n ih =>
      intro h
      show bval f n * 10 + f n = bval g n * 10 + g n
      rw [ih (fun j hj => h j (by omega)), h n (by omega)]

theorem bval_zero_fn : ∀ n, bval (fun _ => 0) n = 0 := by
  intro n
  induction n with
  | zero => rfl
  | succ n ih => show bval (fun _ => 0) n * 10 + 0 = 0; rw [ih]

theorem bval_upd (f : Nat → Nat) (v : Nat) :
    ∀ n k, k < n →
      bval (upd f k v) n + f k * 10 ^ (n - 1 - k) =
        bval f n + v * 10 ^ (n - 1 - k) := by
  intro n
  induction n with
  | zero => intro k hk; omega
  | succ n ih =>
      intro k hk
      by_cases hkn : k = n
      · subst hkn
        have hb : bval (upd f k v) k = bval f k :=
          bval_congr _ _ k (fun j hj => upd_ne f k v (by omega))
        have he : k + 1 - 1 - k = 0 := by omega
        show bval (upd f k v) k * 10 + upd f k v k + f k * 10 ^ (k + 1 - 1 - k) =
          bval f k * 10 + f k + v * 10 ^ (k + 1 - 1 - k)
        rw [hb, upd_self, he, pow_zero]
        omega
      · have hklt : k < n := by omega
        have he : n + 1 - 1 - k = n - k := by omega
        show bval (upd f k v) n * 10 + upd f k v n + f k * 10 ^ (n + 1 - 1 - k) =
          bval f n * 10 + f n + v * 10 ^ (n + 1 - 1 - k)
        rw [upd_ne f k v (by omega : n ≠ k), he]
        have h10 := congrArg (fun x => x * 10) (ih k hklt)
        simp only [Nat.add_mul] at h10
        have hpow : 10 ^ (n - 1 - k) * 10 = 10 ^ (n - k) := by
          rw [← pow_succ]
          congr 1
          omega
        rw [Nat.mul_assoc, Nat.mul_assoc, hpow] at h10
        omega

theorem mulStep_bval (num1 num2 : List Char) (i j n : Nat) (res : Nat → Nat)
    (h : i + j + 1 < n) :
    bval (mulStep num1 num2 i j res) n =
      bval res n +
        digitVal (num1.getD i '0') * digitVal (num2.getD j '0') *
          10 ^ (n - 1 - (i + j + 1)) := by
  have hstep : mulStep num1 num2 i j res =
      upd (upd res (i + j + 1)
          ((digitVal (num1.getD i '0') * digitVal (num2.getD j '0') +
            res (i + j + 1)) % 10)) (i + j)
        (upd res (i + j + 1)
          ((digitVal (num1.getD i '0') * digitVal (num2.getD j '0') +
            res (i + j + 1)) % 10) (i + j) +
          (digitVal (num1.getD i '0') * digitVal (num2.getD j '0') +
            res (i + j + 1)) / 10) := rfl
  rw [hstep]
  have hq : upd res (i + j + 1)
      ((digitVal (num1.getD i '0') * digitVal (num2.getD j '0') +
        res (i + j + 1)) % 10) (i + j) = res (i + j) :=
    upd_ne _ _ _ (by omega)
  rw [hq]
  have h1 := bval_upd res
    ((digitVal (num1.getD i '0') * digitVal (num2.getD j '0') +
      res (i + j + 1)) % 10) n (i + j + 1) h
  have h2 := bval_upd
    (upd res (i + j + 1)
      ((digitVal (num1.getD i '0') * digitVal (num2.getD j '0') +
        res (i + j + 1)) % 10))
    (res (i + j) +
      (digitVal (num1.getD i '0') * digitVal (num2.getD j '0') +
        res (i + j + 1)) / 10) n (i + j) (by omega)
  rw [hq] at h2
  simp only [Nat.add_mul] at h2
  have hpow : 10 ^ (n - 1 - (i + j)) = 10 * 10 ^ (n - 1 - (i + j + 1)) := by
    rw [← pow_succ']
    congr 1
    omega
  rw [hpow] at h2
  have hkey :
      ((digitVal (num1.getD i '0') * digitVal (num2.getD j '0') +
          res (i + j + 1)) % 10) * 10 ^ (n - 1 - (i + j + 1)) +
        ((digitVal (num1.getD i '0') * digitVal (num2.getD j '0') +
          res (i + j + 1)) / 10) * (10 * 10 ^ (n - 1 - (i + j + 1))) =
      digitVal (num1.getD i '0') * digitVal (num2.getD j '0') *
          10 ^ (n - 1 - (i + j + 1)) +
        res (i + j + 1) * 10 ^ (n - 1 - (i + j + 1)) := by
    have hdm :
        (digitVal (num1.getD i '0') * digitVal (num2.getD j '0') +
            res (i + j + 1)) % 10 +
          10 * ((digitVal (num1.getD i '0') * digitVal (num2.getD j '0') +
            res (i + j + 1)) / 10) =
          digitVal (num1.getD i '0') * digitVal (num2.getD j '0') +
            res (i + j + 1) := by
      omega
    calc ((digitVal (num1.getD i '0') * digitVal (num2.getD j '0') +
            res (i + j + 1)) % 10) * 10 ^ (n - 1 - (i + j + 1)) +
          ((digitVal (num1.getD i '0') * digitVal (num2.getD j '0') +
            res (i + j + 1)) / 10) * (10 * 10 ^ (n - 1 - (i + j + 1)))
        = ((digitVal (num1.getD i '0') * digitVal (num2.getD j '0') +
            res (i + j + 1)) % 10 +
          10 * ((digitVal (num1.getD i '0') * digitVal (num2.getD j '0') +
            res (i + j + 1)) / 10)) * 10 ^ (n - 1 - (i + j + 1)) := by ring
      _ = (digitVal (num1.getD i '0') * digitVal (num2.getD j '0') +
            res (i + j + 1)) * 10 ^ (n - 1 - (i + j + 1)) := by rw [hdm]
      _ = _ := by ring
  omega

theorem strVal_foldl_take_succ :
    ∀ (l : List Char) (k a : Nat), k < l.length →
      (l.take (k + 1)).foldl (fun x c => x * 10 + digitVal c) a =
        (l.take k).foldl (fun x c => x * 10 + digitVal c) a * 10 +
          digitVal (l.getD k '0') := by
  intro l
  induction l with
  | nil => intro k a h; simp at h
  | cons c t ih =>
      intro k a h
      cases k with
      | zero => rfl
      | succ k =>
          rw [List.take_succ_cons, List.take_succ_cons, List.foldl_cons,
            List.foldl_cons]
          exact ih k _ (by simpa using h)

theorem strVal_take_succ (l : List Char) (k : Nat) (hk : k < l.length) :
    strVal (l.take (k + 1)) = strVal (l.take k) * 10 + digitVal (l.getD k '0') :=
  strVal_foldl_take_succ l k 0 hk

theorem mulInnerLoop_bval (num1 num2 : List Char) (i n : Nat)
    (hi : i < num1.length) (hn : num1.length + num2.length ≤ n) :
    ∀ cnt : Nat, cnt ≤ num2.length → ∀ res : Nat → Nat,
      bval (mulInnerLoop num1 num2 i cnt res) n =
        bval res n +
          digitVal (num1.getD i '0') * strVal (num2.take cnt) *
            10 ^ (n - 1 - (i + cnt)) := by
  intro cnt
  induction cnt with
  | zero =>
      intro _ res
      show bval res n = _
      simp [strVal]
  | succ cnt ih =>
      intro hcnt res
      show bval (mulInnerLoop num1 num2 i cnt (mulStep num1 num2 i cnt res)) n = _
      rw [ih (by omega) _, mulStep_bval num1 num2 i cnt n res (by omega),
        strVal_take_succ num2 cnt (by omega),
        (by omega : i + (cnt + 1) = i + cnt + 1)]
      have hpow : 10 ^ (n - 1 - (i + cnt)) = 10 * 10 ^ (n - 1 - (i + cnt + 1)) := by
        rw [← pow_succ']
        congr 1
        omega
      rw [hpow]
      ring

theorem mulOuterLoop_bval (num1 num2 : List Char) (n : Nat)
    (hn : num1.length + num2.length ≤ n) :
    ∀ cnt, cnt ≤ num1.length → ∀ res : Nat → Nat,
      bval (mulOuterLoop num1 num2 cnt res) n =
        bval res n +
          strVal (num1.take cnt) * strVal num2 *
            10 ^ (n - num2.length - cnt) := by
  intro cnt
  induction cnt with
  | zero =>
      intro _ res
      show bval res n = _
      simp [strVal]
  | succ cnt ih =>
      intro hcnt res
      show bval (mulOuterLoop num1 num2 cnt
        (mulInnerLoop num1 num2 cnt num2.length res)) n = _
      rw [ih (by omega) _,
        mulInnerLoop_bval num1 num2 cnt n (by omega) hn num2.length le_rfl,
        List.take_length, strVal_take_succ num1 cnt (by omega)]
      have he1 : n - 1 - (cnt + num2.length) = n - num2.length - (cnt + 1) := by
        omega
      have hpow : 10 ^ (n - num2.length - cnt) =
          10 * 10 ^ (n - num2.length - (cnt + 1)) := by
        rw [← pow_succ']
        congr 1
        omega
      rw [he1, hpow]
      ring

theorem mul_result_value (num1 num2 : List Char) (h1 : num1 ≠ []) :
    bval (mulOuterLoop num1 num2 num1.length (fun _ => 0))
        (num1.length + num2.length) =
      strVal num1 * strVal num2 := by
  rw [mulOuterLoop_bval num1 num2 (num1.length + num2.length) le_rfl
      num1.length le_rfl _,
    bval_zero_fn, List.take_length,
    (by omega : num1.length + num2.length - num2.length - num1.length = 0),
    pow_zero]
  omega

theorem digitVal_getD_le (l : List Char) (hd : isDigitStr l = true) (i : Nat) :
    digitVal (l.getD i '0') ≤ 9 := by
  induction l generalizing i with
  | nil =>
      show digitVal '0' ≤ 9
      decide
  | cons c t ih =>
      cases i with
      | zero => exact digitVal_le_nine (isDigitStr_mem hd (List.mem_cons_self _ _))
      | succ i =>
          have hdt : isDigitStr t = true := by
            simp only [isDigitStr, List.all_cons, Bool.and_eq_true] at hd
            exact hd.2
          exact ih hdt i

theorem mulStep_cell (num1 num2 : List Char) (i j : Nat) (res : Nat → Nat) :
    mulStep num1 num2 i j res (i + j + 1) =
      (digitVal (num1.getD i '0') * digitVal (num2.getD j '0') +
        res (i + j + 1)) % 10 ∧
    mulStep num1 num2 i j res (i + j) =
      res (i + j) +
        (digitVal (num1.getD i '0') * digitVal (num2.getD j '0') +
          res (i + j + 1)) / 10 ∧
    ∀ k, k ≠ i + j + 1 → k ≠ i + j → mulStep num1 num2 i j res k = res k := by
  have hstep : mulStep num1 num2 i j res =
      upd (upd res (i + j + 1)
          ((digitVal (num1.getD i '0') * digitVal (num2.getD j '0') +
            res (i + j + 1)) % 10)) (i + j)
        (upd res (i + j + 1)
          ((digitVal (num1.getD i '0') * digitVal (num2.getD j '0') +
            res (i + j + 1)) % 10) (i + j) +
          (digitVal (num1.getD i '0') * digitVal (num2.getD j '0') +
            res (i + j + 1)) / 10) := rfl
  rw [hstep]
  refine ⟨?_, ?_, ?_⟩
  · rw [upd_ne _ _ _ (by omega), upd_self]
  · rw [upd_self, upd_ne _ _ _ (by omega)]
  · intro k hk1 hk2
    rw [upd_ne _ _ _ hk2, upd_ne _ _ _ hk1]

theorem mulInnerLoop_bound (num1 num2 : List Char)
    (hd1 : isDigitStr num1 = true) (hd2 : isDigitStr num2 = true) (i : Nat) :
    ∀ (cnt : Nat) (res : Nat → Nat), 1 ≤ cnt →
      (∀ k, k ≤ i → res k = 0) →
      res (i + cnt) ≤ 18 →
      (∀ k, i < k → k ≠ i + cnt → res k ≤ 9) →
      (∀ k, k < i → mulInnerLoop num1 num2 i cnt res k = 0) ∧
      (∀ k, i ≤ k → mulInnerLoop num1 num2 i cnt res k ≤ 9) := by
  intro cnt
  induction cnt with
  | zero => intro res h1 _ _ _; omega
  | succ cnt ih =>
      intro res _ hz h18 h9
      obtain ⟨hp, hq, hk⟩ := mulStep_cell num1 num2 i cnt res
      have hmul : digitVal (num1.getD i '0') * digitVal (num2.getD cnt '0') ≤ 81 :=
        Nat.mul_le_mul (digitVal_getD_le _ hd1 _) (digitVal_getD_le _ hd2 _)
      have h18' : res (i + cnt + 1) ≤ 18 := by
        have : i + (cnt + 1) = i + cnt + 1 := by omega
        rw [this] at h18
        exact h18
      have hs : digitVal (num1.getD i '0') * digitVal (num2.getD cnt '0') +
          res (i + cnt + 1) ≤ 99 := by omega
      by_cases hc : cnt = 0
      · subst hc
        simp only [Nat.add_zero, Nat.zero_add] at hp hq hk h18 h18' h9 hs
        show (∀ k, k < i → mulStep num1 num2 i 0 res k = 0) ∧
          (∀ k, i ≤ k → mulStep num1 num2 i 0 res k ≤ 9)
        constructor
        · intro k hki
          rw [hk k (by omega) (by omega)]
          exact hz k (by omega)
        · intro k hki
          by_cases hk1 : k = i + 1
          · subst hk1; rw [hp]; omega
          · by_cases hk2 : k = i
            · subst hk2
              rw [hq, hz k (by omega)]
              omega
            · rw [hk k hk1 hk2]
              exact h9 k (by omega) (by omega)
      · have hc1 : 1 ≤ cnt := by omega
        show (∀ k, k < i →
            mulInnerLoop num1 num2 i cnt (mulStep num1 num2 i cnt res) k = 0) ∧
          (∀ k, i ≤ k →
            mulInnerLoop num1 num2 i cnt (mulStep num1 num2 i cnt res) k ≤ 9)
        refine ih (mulStep num1 num2 i cnt res) hc1 ?_ ?_ ?_
        · intro k hki
          rw [hk k (by omega) (by omega)]
          exact hz k hki
        · rw [hq]
          have hresq : res (i + cnt) ≤ 9 := h9 (i + cnt) (by omega) (by omega)
          omega
        · intro k hik hkc
          by_cases hk1 : k = i + cnt + 1
          · subst hk1; rw [hp]; omega
          · rw [hk k hk1 (by omega)]
            exact h9 k hik (by omega)

theorem mulOuterLoop_bound (num1 num2 : List Char)
    (hd1 : isDigitStr num1 = true) (hd2 : isDigitStr num2 = true)
    (hlen2 : 1 ≤ num2.length) :
    ∀ (cnt : Nat) (res : Nat → Nat),
      (∀ k, k < cnt → res k = 0) → (∀ k, cnt ≤ k → res k ≤ 9) →
      ∀ k, mulOuterLoop num1 num2 cnt res k ≤ 9 := by
  intro cnt
  induction cnt with
  | zero => intro res _ h9 k; exact h9 k (by omega)
  | succ cnt ih =>
      intro res hz h9 k
      show mulOuterLoop num1 num2 cnt
        (mulInnerLoop num1 num2 cnt num2.length res) k ≤ 9
      obtain ⟨hpost0, hpost9⟩ := mulInnerLoop_bound num1 num2 hd1 hd2 cnt
        num2.length res hlen2
        (fun j hj => hz j (by omega))
        (by
          have := h9 (cnt + num2.length) (by omega)
          omega)
        (fun j hj1 hj2 => h9 j (by omega))
      exact ih (mulInnerLoop num1 num2 cnt num2.length res) hpost0 hpost9 k

theorem mul_result_bound (num1 num2 : List Char)
    (hd1 : isDigitStr num1 = true) (hd2 : isDigitStr num2 = true)
    (h2 : num2 ≠ []) :
    ∀ k, mulOuterLoop num1 num2 num1.length (fun _ => 0) k ≤ 9 :=
  mulOuterLoop_bound num1 num2 hd1 hd2 (List.length_pos.mpr h2)
    num1.length (fun _ => 0) (fun _ _ => rfl) (fun _ _ => Nat.zero_le 9)

theorem bval_eq_ofDigits (f : Nat → Nat) :
    ∀ n, bval f n = Nat.ofDigits 10 ((List.range n).map f).reverse := by
  intro n
  induction n with
  | zero => rfl
  | succ n ih =>
      rw [List.range_succ, List.map_append, List.reverse_append]
      simp only [List.map_cons, List.map_nil, List.reverse_cons, List.reverse_nil,
        List.nil_append, List.singleton_append]
      rw [Nat.ofDigits_cons, ← ih]
      show bval f n * 10 + f n = f n + 10 * bval f n
      ring

theorem ofDigits_replicate_zero :
    ∀ m, Nat.ofDigits 10 (List.replicate m 0) = 0 := by
  intro m
  induction m with
  | zero => rfl
  | succ m ih =>
      rw [List.replicate_succ, Nat.ofDigits_cons, ih]

theorem head?_dropWhile_ne (p : Nat → Bool) :
    ∀ (l : List Nat) (x : Nat), (l.dropWhile p).head? = some x → p x = false := by
  intro l
  induction l with
  | nil => intro x h; simp [List.dropWhile] at h
  | cons a t ih =>
      intro x h
      rw [List.dropWhile_cons] at h
      by_cases hpa : p a = true
      · rw [if_pos hpa] at h
        exact ih x h
      · rw [if_neg hpa] at h
        simp only [List.head?_cons, Option.some.injEq] at h
        rw [← h]
        exact Bool.eq_false_iff.mpr hpa

/-- Rendering of the result vector: skipping leading zeros and mapping to
digit characters (with "0" for the all-zero vector) produces exactly the
canonical decimal representation of the value of the cells, provided every
cell holds a single digit. -/
theorem strip_render (cells : List Nat) (hb : ∀ x ∈ cells, x ≤ 9) :
    (if ((cells.dropWhile (· == 0)).map digitChar).isEmpty then ['0']
      else (cells.dropWhile (· == 0)).map digitChar) =
      decimalRepr (Nat.ofDigits 10 cells.reverse) := by
  have hsplit : cells.takeWhile (· == 0) ++ cells.dropWhile (· == 0) = cells :=
    List.takeWhile_append_dropWhile (fun x => x == 0) cells
  have hrep : cells.takeWhile (· == 0) =
      List.replicate (cells.takeWhile (· == 0)).length 0 := by
    rw [List.eq_replicate_iff]
    refine ⟨rfl, fun b hb0 => ?_⟩
    have := List.mem_takeWhile_imp hb0
    simpa using this
  have hv : Nat.ofDigits 10 cells.reverse =
      Nat.ofDigits 10 (cells.dropWhile (· == 0)).reverse := by
    conv_lhs => rw [← hsplit]
    rw [List.reverse_append, Nat.ofDigits_append]
    rw [hrep, List.reverse_replicate, ofDigits_replicate_zero]
    simp
  rw [hv]
  cases hd : cells.dropWhile (· == 0) with
  | nil => simp [decimalRepr]
  | cons x d =>
      have hxmem : ∀ y ∈ x :: d, y < 10 := by
        intro y hy
        have hsub : (cells.dropWhile (· == 0)).Sublist cells :=
          List.dropWhile_sublist _
      -- membership: y ∈ dropWhile ⊆ cells
        have : y ∈ cells := hsub.subset (by rw [hd]; exact hy)
        have := hb y this
        omega
      have hxne : x ≠ 0 := by
        have hh : ((cells.dropWhile (· == 0)).head? = some x) := by
          rw [hd]; rfl
        have := head?_dropWhile_ne (· == 0) cells x hh
        simpa using this
      have hlast : ∀ h : (x :: d).reverse ≠ [],
          ((x :: d).reverse).getLast h ≠ 0 := by
        intro h
        have hq : ((x :: d).reverse).getLast? = some x := by
          rw [List.getLast?_reverse, List.head?_cons]
        rw [List.getLast?_eq_getLast _ h] at hq
        rw [Option.some.inj hq]
        exact hxne
      have hmem' : ∀ l ∈ (x :: d).reverse, l < 10 := by
        intro l hl
        exact hxmem l (List.mem_reverse.mp hl)
      have hdig : Nat.digits 10 (Nat.ofDigits 10 (x :: d).reverse) =
          (x :: d).reverse :=
        Nat.digits_ofDigits 10 (by norm_num) _ hmem' hlast
      have hne0 : Nat.ofDigits 10 (x :: d).reverse ≠ 0 := by
        intro h0
        rw [h0] at hdig
        simp at hdig
      rw [decimalRepr_eq_digits, if_neg hne0, hdig, List.map_reverse,
        List.reverse_reverse]
      simp

/-- C3: for every pair of non-empty strings of decimal digits,
`MultiplyStrings` returns the decimal representation of the product of the
integers the strings denote, without leading zeros, and with `"0"` for a zero
product (`decimalRepr` is exactly that canonical representation). -/
theorem MultiplyStrings_correct (num1 num2 : List Char)
    (h1 : num1 ≠ []) (h2 : num2 ≠ [])
    (hd1 : isDigitStr num1 = true) (hd2 : isDigitStr num2 = true) :
    MultiplyStrings num1 num2 = decimalRepr (strVal num1 * strVal num2) := by
  have hbound := mul_result_bound num1 num2 hd1 hd2 h2
  have hcells : ∀ x ∈ (List.range (num1.length + num2.length)).map
      (mulOuterLoop num1 num2 num1.length (fun _ => 0)), x ≤ 9 := by
    intro x hx
    obtain ⟨k, _, rfl⟩ := List.mem_map.mp hx
    exact hbound k
  have hof : Nat.ofDigits 10 ((List.range (num1.length + num2.length)).map
      (mulOuterLoop num1 num2 num1.length (fun _ => 0))).reverse =
      strVal num1 * strVal num2 := by
    rw [← bval_eq_ofDigits]
    exact mul_result_value num1 num2 h1
  have hdef : MultiplyStrings num1 num2 =
      (if ((((List.range (num1.length + num2.length)).map
          (mulOuterLoop num1 num2 num1.length (fun _ => 0))).dropWhile
            (· == 0)).map digitChar).isEmpty then ['0']
        else (((List.range (num1.length + num2.length)).map
          (mulOuterLoop num1 num2 num1.length (fun _ => 0))).dropWhile
            (· == 0)).map digitChar) := rfl
  rw [hdef, strip_render _ hcells, hof]

/-- Witness for C3: 12 * 9. -/
theorem MultiplyStrings_correct_witness :
    MultiplyStrings ['1', '2'] ['9'] =
      decimalRepr (strVal ['1', '2'] * strVal ['9']) :=
  MultiplyStrings_correct ['1', '2'] ['9'] (by decide) (by decide) (by decide)
    (by decide)

theorem findSumAux_val :
    ∀ (x y : List Nat) (c : Nat),
      Nat.ofDigits 10 (findSumAux x y c) =
        Nat.ofDigits 10 x + Nat.ofDigits 10 y + c := by
  intro x y c
  induction x, y, c using findSumAux.induct with
  | case1 =>
      rw [findSumAux]
      simp
  | case2 c h ih =>
      rw [findSumAux, dif_neg h, Nat.ofDigits_cons, ih]
      simp only [Nat.ofDigits_nil]
      omega
  | case3 x xs c ih =>
      rw [findSumAux, Nat.ofDigits_cons, ih, Nat.ofDigits_cons]
      simp only [Nat.ofDigits_nil]
      omega
  | case4 y ys c ih =>
      rw [findSumAux, Nat.ofDigits_cons, ih, Nat.ofDigits_cons]
      simp only [Nat.ofDigits_nil]
      omega
  | case5 x xs y ys c ih =>
      rw [findSumAux, Nat.ofDigits_cons, ih, Nat.ofDigits_cons,
        Nat.ofDigits_cons]
      omega

theorem findSumAux_lt_ten :
    ∀ (x y : List Nat) (c : Nat), ∀ d ∈ findSumAux x y c, d < 10 := by
  intro x y c
  induction x, y, c using findSumAux.induct with
  | case1 =>
      rw [findSumAux]
      simp
  | case2 c h ih =>
      rw [findSumAux, dif_neg h]
      intro d hd
      rcases List.mem_cons.mp hd with h1 | h2
      · subst h1; exact Nat.mod_lt _ (by norm_num)
      · exact ih d h2
  | case3 x xs c ih =>
      rw [findSumAux]
      intro d hd
      rcases List.mem_cons.mp hd with h1 | h2
      · subst h1; exact Nat.mod_lt _ (by norm_num)
      · exact ih d h2
  | case4 y ys c ih =>
      rw [findSumAux]
      intro d hd
      rcases List.mem_cons.mp hd with h1 | h2
      · subst h1; exact Nat.mod_lt _ (by norm_num)
      · exact ih d h2
  | case5 x xs y ys c ih =>
      rw [findSumAux]
      intro d hd
      rcases List.mem_cons.mp hd with h1 | h2
      · subst h1; exact Nat.mod_lt _ (by norm_num)
      · exact ih d h2

theorem findSumAux_ne_nil (x y : List Nat) (c : Nat)
    (h : x ≠ [] ∨ y ≠ [] ∨ c ≠ 0) : findSumAux x y c ≠ [] := by
  cases x with
  | cons a xs =>
      cases y with
      | cons b ys => rw [findSumAux]; simp
      | nil => rw [findSumAux]; simp
  | nil =>
      cases y with
      | cons b ys => rw [findSumAux]; simp
      | nil =>
          have hc : c ≠ 0 := by
            rcases h with h | h | h
            · exact absurd rfl h
            · exact absurd rfl h
            · exact h
          rw [findSumAux, dif_neg hc]
          simp

theorem findSumAux_nil_left :
    ∀ z : List Nat, (∀ d ∈ z, d < 10) → findSumAux [] z 0 = z := by
  intro z
  induction z with
  | nil => rw [findSumAux]; simp
  | cons d zs ih =>
      intro h
      have hd : d < 10 := h d (List.mem_cons_self _ _)
      rw [findSumAux,
        (by omega : (0 + d) % 10 = d), (by omega : (0 + d) / 10 = 0),
        ih (fun e he => h e (List.mem_cons_of_mem _ he))]

theorem findSumAux_nil_right :
    ∀ z : List Nat, (∀ d ∈ z, d < 10) → findSumAux z [] 0 = z := by
  intro z
  induction z with
  | nil => rw [findSumAux]; simp
  | cons d zs ih =>
      intro h
      have hd : d < 10 := h d (List.mem_cons_self _ _)
      rw [findSumAux,
        (by omega : (0 + d) % 10 = d), (by omega : (0 + d) / 10 = 0),
        ih (fun e he => h e (List.mem_cons_of_mem _ he))]

theorem getLast?_cons_ne_nil {a : Nat} {l : List Nat} (h : l ≠ []) :
    (a :: l).getLast? = l.getLast? := by
  obtain ⟨b, t, rfl⟩ := List.exists_cons_of_ne_nil h
  exact List.getLast?_cons_cons

theorem getLast?_tail_ne {x : Nat} {xs : List Nat}
    (h : (x :: xs).getLast? ≠ some 0) : xs.getLast? ≠ some 0 := by
  cases xs with
  | nil => simp
  | cons b l =>
      rw [← List.getLast?_cons_cons]
      exact h

theorem findSumAux_one : findSumAux [] [] 1 = [1] := by
  rw [findSumAux, dif_neg (by omega : (1 : Nat) ≠ 0)]
  norm_num
  rw [findSumAux]
  simp

theorem findSumAux_two : findSumAux [] [] 2 = [2] := by
  rw [findSumAux, dif_neg (by omega : (2 : Nat) ≠ 0)]
  norm_num
  rw [findSumAux]
  simp

theorem findSumAux_last :
    ∀ (x y : List Nat) (c : Nat),
      (∀ d ∈ x, d < 10) → (∀ d ∈ y, d < 10) → c ≤ 2 →
      x.getLast? ≠ some 0 → y.getLast? ≠ some 0 →
      (x ≠ [] ∨ y ≠ [] ∨ c ≠ 0) →
      (findSumAux x y c).getLast? ≠ some 0 := by
  intro x y c
  induction x, y, c using findSumAux.induct with
  | case1 =>
      intro _ _ _ _ _ htriv
      rcases htriv with h | h | h <;> exact absurd rfl h
  | case2 c hc ih =>
      intro _ _ hc2 _ _ _
      rw [findSumAux, dif_neg hc,
        (by omega : c % 10 = c), (by omega : c / 10 = 0)]
      have h0 : findSumAux ([] : List Nat) ([] : List Nat) 0 = [] := by
        rw [findSumAux]; simp
      rw [h0, List.getLast?_singleton]
      intro hcon
      exact hc (Option.some.inj hcon)
  | case3 x xs c ih =>
      intro hdx _ hc2 hlx _ _
      have hx10 : x < 10 := hdx x (List.mem_cons_self _ _)
      rw [findSumAux]
      by_cases hxs : xs = []
      · subst hxs
        have hxne : x ≠ 0 := by
          rw [List.getLast?_singleton] at hlx
          simpa using hlx
        by_cases hcx : c + x ≤ 9
        · rw [(by omega : (c + x) / 10 = 0)]
          have h0 : findSumAux ([] : List Nat) ([] : List Nat) 0 = [] := by
            rw [findSumAux]; simp
          rw [h0, List.getLast?_singleton]
          intro hcon
          have hval0 := Option.some.inj hcon
          omega
        · rw [(by omega : (c + x) / 10 = 1), findSumAux_one,
            List.getLast?_cons_cons, List.getLast?_singleton]
          simp
      · have hlxs : xs.getLast? ≠ some 0 := getLast?_tail_ne hlx
        have hih := ih (fun d hd => hdx d (List.mem_cons_of_mem _ hd))
          (by intro d hd; simp at hd) (by omega) hlxs (by simp)
          (Or.inl hxs)
        have hne := findSumAux_ne_nil xs [] ((c + x) / 10) (Or.inl hxs)
        rw [getLast?_cons_ne_nil hne]
        exact hih
  | case4 y ys c ih =>
      intro _ hdy hc2 _ hly _
      have hy10 : y < 10 := hdy y (List.mem_cons_self _ _)
      rw [findSumAux]
      by_cases hys : ys = []
      · subst hys
        have hyne : y ≠ 0 := by
          rw [List.getLast?_singleton] at hly
          simpa using hly
        by_cases hcy : c + y ≤ 9
        · rw [(by omega : (c + y) / 10 = 0)]
          have h0 : findSumAux ([] : List Nat) ([] : List Nat) 0 = [] := by
            rw [findSumAux]; simp
          rw [h0, List.getLast?_singleton]
          intro hcon
          have hval0 := Option.some.inj hcon
          omega
        · rw [(by omega : (c + y) / 10 = 1), findSumAux_one,
            List.getLast?_cons_cons, List.getLast?_singleton]
          simp
      · have hlys : ys.getLast? ≠ some 0 := getLast?_tail_ne hly
        have hih := ih (by intro d hd; simp at hd)
          (fun d hd => hdy d (List.mem_cons_of_mem _ hd)) (by omega)
          (by simp) hlys (Or.inr (Or.inl hys))
        have hne := findSumAux_ne_nil [] ys ((c + y) / 10) (Or.inr (Or.inl hys))
        rw [getLast?_cons_ne_nil hne]
        exact hih
  | case5 x xs y ys c ih =>
      intro hdx hdy hc2 hlx hly _
      have hx10 : x < 10 := hdx x (List.mem_cons_self _ _)
      have hy10 : y < 10 := hdy y (List.mem_cons_self _ _)
      rw [findSumAux]
      by_cases hxs : xs = []
      · by_cases hys : ys = []
        · subst hxs; subst hys
          have hxne : x ≠ 0 := by
            rw [List.getLast?_singleton] at hlx
            simpa using hlx
          by_cases hcxy : c + x + y ≤ 9
          · rw [(by omega : (c + x + y) / 10 = 0)]
            have h0 : findSumAux ([] : List Nat) ([] : List Nat) 0 = [] := by
              rw [findSumAux]; simp
            rw [h0, List.getLast?_singleton]
            intro hcon
            have hval0 := Option.some.inj hcon
            omega
          · by_cases hcxy2 : c + x + y ≤ 19
            · rw [(by omega : (c + x + y) / 10 = 1), findSumAux_one,
                List.getLast?_cons_cons, List.getLast?_singleton]
              simp
            · rw [(by omega : (c + x + y) / 10 = 2), findSumAux_two,
                List.getLast?_cons_cons, List.getLast?_singleton]
              simp
        · have hlys : ys.getLast? ≠ some 0 := getLast?_tail_ne hly
          have hih := ih (by intro d hd; rw [hxs] at hd; simp at hd)
            (fun d hd => hdy d (List.mem_cons_of_mem _ hd)) (by omega)
            (by rw [hxs]; simp) hlys (Or.inr (Or.inl hys))
          have hne := findSumAux_ne_nil xs ys ((c + x + y) / 10)
            (Or.inr (Or.inl hys))
          rw [getLast?_cons_ne_nil hne]
          exact hih
      · have hlxs : xs.getLast? ≠ some 0 := getLast?_tail_ne hlx
        have hih := ih (fun d hd => hdx d (List.mem_cons_of_mem _ hd))
          (fun d hd => hdy d (List.mem_cons_of_mem _ hd)) (by omega)
          hlxs (getLast?_tail_ne hly) (Or.inl hxs)
        have hne := findSumAux_ne_nil xs ys ((c + x + y) / 10) (Or.inl hxs)
        rw [getLast?_cons_ne_nil hne]
        exact hih

theorem isDigitStr_reverse {l : List Char} (hd : isDigitStr l = true) :
    isDigitStr l.reverse = true := by
  simp only [isDigitStr, List.all_eq_true] at hd ⊢
  intro c hc
  exact hd c (List.mem_reverse.mp hc)

/-- The digit/char round trip through the reversed digit list. -/
theorem revmap_roundtrip (l : List Char) (hd : isDigitStr l = true) :
    ((l.reverse.map digitVal).map digitChar).reverse = l := by
  rw [List.map_map]
  have hmid : l.reverse.map (digitChar ∘ digitVal) = l.reverse := by
    have := map_digitChar_digitVal (isDigitStr_reverse hd)
    simpa [Function.comp] using this
  rw [hmid, List.reverse_reverse]

theorem digitVal_lt_of_mem_revmap (l : List Char) (hd : isDigitStr l = true) :
    ∀ d ∈ l.reverse.map digitVal, d < 10 := by
  intro d hdm
  obtain ⟨ch, hch, rfl⟩ := List.mem_map.mp hdm
  exact digitVal_lt_ten (isDigitStr_mem hd (List.mem_reverse.mp hch))

theorem FindSum_zero_zero : FindSum ['0'] ['0'] = ['0'] := by
  unfold FindSum
  have h1 : (['0'].reverse.map digitVal) = [0] := by decide
  rw [h1]
  have h2 : findSumAux [0] [0] 0 = [0] := by
    rw [findSumAux]
    norm_num
    rw [findSumAux]
    simp
  rw [h2]
  decide

/-- C4 (amended): for canonical digit strings — strings of decimal digits with
no leading zero, where `"0"` itself is allowed — `FindSum` returns the decimal
representation of the sum of the integers the strings denote.  (On inputs with
leading zeros the output can carry a leading zero and is then not the
canonical representation; see the counterexample.) -/
theorem FindSum_correct (a b : List Char) (ha : a ≠ []) (hb : b ≠ [])
    (hda : isDigitStr a = true) (hdb : isDigitStr b = true)
    (hcana : a = ['0'] ∨ a.head? ≠ some '0')
    (hcanb : b = ['0'] ∨ b.head? ≠ some '0') :
    FindSum a b = decimalRepr (strVal a + strVal b) := by
  by_cases ha0 : a = ['0']
  · by_cases hb0 : b = ['0']
    · subst ha0; subst hb0
      rw [FindSum_zero_zero]
      decide
    · subst ha0
      have hbrev : b.reverse.map digitVal ≠ [] := by
        intro h
        apply hb
        have := congrArg List.length h
        simp at this
        exact this
      obtain ⟨y0, ys, hy⟩ := List.exists_cons_of_ne_nil hbrev
      have hy0lt : y0 < 10 := by
        have := digitVal_lt_of_mem_revmap b hdb y0 (by rw [hy]; exact List.mem_cons_self _ _)
        exact this
      unfold FindSum
      have h1 : (['0'].reverse.map digitVal) = [0] := by decide
      rw [h1, hy, findSumAux,
        (by omega : (0 + 0 + y0) % 10 = y0), (by omega : (0 + 0 + y0) / 10 = 0),
        findSumAux_nil_left ys (by
          intro d hd
          exact digitVal_lt_of_mem_revmap b hdb d (by rw [hy]; exact List.mem_cons_of_mem _ hd)),
        ← hy, revmap_roundtrip b hdb]
      have hsv : strVal ['0'] = 0 := by decide
      rw [hsv, Nat.zero_add]
      exact (decimalRepr_strVal b hdb hb hcanb).symm
  · by_cases hb0 : b = ['0']
    · subst hb0
      have harev : a.reverse.map digitVal ≠ [] := by
        intro h
        apply ha
        have := congrArg List.length h
        simp at this
        exact this
      obtain ⟨x0, xs, hx⟩ := List.exists_cons_of_ne_nil harev
      have hx0lt : x0 < 10 := by
        have := digitVal_lt_of_mem_revmap a hda x0 (by rw [hx]; exact List.mem_cons_self _ _)
        exact this
      unfold FindSum
      have h1 : (['0'].reverse.map digitVal) = [0] := by decide
      rw [h1, hx, findSumAux,
        (by omega : (0 + x0 + 0) % 10 = x0), (by omega : (0 + x0 + 0) / 10 = 0),
        findSumAux_nil_right xs (by
          intro d hd
          exact digitVal_lt_of_mem_revmap a hda d (by rw [hx]; exact List.mem_cons_of_mem _ hd)),
        ← hx, revmap_roundtrip a hda]
      have hsv : strVal ['0'] = 0 := by decide
      rw [hsv, Nat.add_zero]
      exact (decimalRepr_strVal a hda ha hcana).symm
    · have hheada : a.head? ≠ some '0' := by
        rcases hcana with h | h
        · exact absurd h ha0
        · exact h
      have hheadb : b.head? ≠ some '0' := by
        rcases hcanb with h | h
        · exact absurd h hb0
        · exact h
      obtain ⟨ca, ta, rfl⟩ := List.exists_cons_of_ne_nil ha
      obtain ⟨cb, tb, rfl⟩ := List.exists_cons_of_ne_nil hb
      have hlx : ((ca :: ta).reverse.map digitVal).getLast? ≠ some 0 := by
        rw [List.getLast?_map, List.getLast?_reverse, List.head?_cons]
        intro hcon
        have hdva : digitVal ca = 0 := by
          have := Option.map_eq_some'.mp hcon
          obtain ⟨v, hv1, hv2⟩ := this
          rw [← Option.some.inj hv1] at hv2
          exact hv2
        apply hheada
        rw [List.head?_cons]
        have hca : ca.isDigit = true :=
          isDigitStr_mem hda (List.mem_cons_self _ _)
        have := digitChar_digitVal hca
        rw [hdva] at this
        rw [← this]
        rfl
      have hly : ((cb :: tb).reverse.map digitVal).getLast? ≠ some 0 := by
        rw [List.getLast?_map, List.getLast?_reverse, List.head?_cons]
        intro hcon
        have hdv : digitVal cb = 0 := by
          have := Option.map_eq_some'.mp hcon
          obtain ⟨v, hv1, hv2⟩ := this
          rw [← Option.some.inj hv1] at hv2
          exact hv2
        apply hheadb
        rw [List.head?_cons]
        have hcb : cb.isDigit = true :=
          isDigitStr_mem hdb (List.mem_cons_self _ _)
        have := digitChar_digitVal hcb
        rw [hdv] at this
        rw [← this]
        rfl
      have hxne : (ca :: ta).reverse.map digitVal ≠ [] := by
        intro h
        have := congrArg List.length h
        simp at this
      have hrne : findSumAux ((ca :: ta).reverse.map digitVal)
          ((cb :: tb).reverse.map digitVal) 0 ≠ [] :=
        findSumAux_ne_nil _ _ _ (Or.inl hxne)
      have hrlast : (findSumAux ((ca :: ta).reverse.map digitVal)
          ((cb :: tb).reverse.map digitVal) 0).getLast? ≠ some 0 :=
        findSumAux_last _ _ 0 (digitVal_lt_of_mem_revmap _ hda)
          (digitVal_lt_of_mem_revmap _ hdb) (by omega) hlx hly (Or.inl hxne)
      have hrd : ∀ d ∈ findSumAux ((ca :: ta).reverse.map digitVal)
          ((cb :: tb).reverse.map digitVal) 0, d < 10 :=
        findSumAux_lt_ten _ _ 0
      have hrlast' : ∀ h : findSumAux ((ca :: ta).reverse.map digitVal)
          ((cb :: tb).reverse.map digitVal) 0 ≠ [],
          (findSumAux ((ca :: ta).reverse.map digitVal)
            ((cb :: tb).reverse.map digitVal) 0).getLast h ≠ 0 := by
        intro h
        intro hcon
        apply hrlast
        rw [List.getLast?_eq_getLast _ h, hcon]
      have hval : Nat.ofDigits 10 (findSumAux ((ca :: ta).reverse.map digitVal)
          ((cb :: tb).reverse.map digitVal) 0) =
          strVal (ca :: ta) + strVal (cb :: tb) := by
        rw [findSumAux_val, strVal_eq_ofDigits, strVal_eq_ofDigits]
        omega
      have hdig : Nat.digits 10 (strVal (ca :: ta) + strVal (cb :: tb)) =
          findSumAux ((ca :: ta).reverse.map digitVal)
            ((cb :: tb).reverse.map digitVal) 0 := by
        rw [← hval]
        exact Nat.digits_ofDigits 10 (by norm_num) _ hrd hrlast'
      have hne0 : strVal (ca :: ta) + strVal (cb :: tb) ≠ 0 := by
        intro h0
        rw [h0] at hdig
        simp only [Nat.digits_zero] at hdig
        exact hrne hdig.symm
      unfold FindSum
      rw [decimalRepr_eq_digits, if_neg hne0, hdig]

/-- Counterexample to C4 as literally stated: on the digit strings "01" and
"1" the sum is 2, but FindSum returns "02", which is not the decimal
representation of 2. -/
theorem FindSum_cex :
    FindSum ['0', '1'] ['1'] = ['0', '2'] ∧
    FindSum ['0', '1'] ['1'] ≠ decimalRepr (strVal ['0', '1'] + strVal ['1']) := by
  have hout : FindSum ['0', '1'] ['1'] = ['0', '2'] := by
    unfold FindSum
    have h1 : (['0', '1'].reverse.map digitVal) = [1, 0] := by decide
    have h2 : (['1'].reverse.map digitVal) = [1] := by decide
    have h3 : findSumAux [1, 0] [1] 0 = [2, 0] := by
      rw [findSumAux]
      norm_num
      rw [findSumAux]
      norm_num
      rw [findSumAux]
      simp
    rw [h1, h2, h3]
    decide
  refine ⟨hout, ?_⟩
  rw [hout]
  decide

/-- Witness for C4 (amended) at 45 + 67. -/
theorem FindSum_correct_witness :
    FindSum ['4', '5'] ['6', '7'] =
      decimalRepr (strVal ['4', '5'] + strVal ['6', '7']) :=
  FindSum_correct ['4', '5'] ['6', '7'] (by decide) (by decide) (by decide)
    (by decide) (Or.inr (by decide)) (Or.inr (by decide))

/-- C8: once the interrupt flag is set — by the signal handler, or by the
elapsed-time display matching the requested duration — the repeater's main
repetition loop never begins another one-second iteration: the loop exits and
the program terminates normally.  (i) With the flag set, the loop returns the
state unchanged for any remaining fuel; (ii) in particular immediately after
`signalHandler` runs; (iii) when the duration matches the new elapsed time,
the current iteration is the last: the loop returns right after its body. -/
theorem interrupted_stops_loop (order : List Nat) (pd : List Char)
    (multiplier hashMultiplier : Nat) (reps : Nat → Nat) (s : RepState) :
    (∀ fuel, s.interrupted = true →
      runLoop order pd multiplier hashMultiplier reps fuel s = s) ∧
    (∀ fuel, runLoop order pd multiplier hashMultiplier reps fuel
      (signalHandler s) = signalHandler s) ∧
    (∀ fuel, s.interrupted = false →
      pd = FormatTime ((s.seconds + 1) % UINT64_SIZE) →
      runLoop order pd multiplier hashMultiplier reps (fuel + 1) s =
        loopBody order pd multiplier hashMultiplier (reps s.seconds) s) := by
  refine ⟨?_, ?_, ?_⟩
  · intro fuel h
    cases fuel with
    | zero => rfl
    | succ fuel => simp [runLoop, h]
  · intro fuel
    cases fuel with
    | zero => rfl
    | succ fuel => simp [runLoop, signalHandler]
  · intro fuel hfalse hpd
    have h2 : (loopBody order pd multiplier hashMultiplier
        (reps s.seconds) s).interrupted = true := by
      simp [loopBody, hfalse, hpd]
    simp [runLoop, hfalse, h2]

/-- Witness for C8 at a concrete initial state and a one-second duration. -/
theorem interrupted_stops_loop_witness :
    runLoop [0] ['0', '0', ':', '0', '0', ':', '0', '1'] 1 1 (fun _ => 0) 7
      (signalHandler
        ⟨false, createMetatronCube, 0, 0, ['0'], ['0']⟩) =
      signalHandler ⟨false, createMetatronCube, 0, 0, ['0'], ['0']⟩ ∧
    runLoop [0] ['0', '0', ':', '0', '0', ':', '0', '1'] 1 1 (fun _ => 0) 3
      ⟨false, createMetatronCube, 0, 0, ['0'], ['0']⟩ =
      loopBody [0] ['0', '0', ':', '0', '0', ':', '0', '1'] 1 1 0
        ⟨false, createMetatronCube, 0, 0, ['0'], ['0']⟩ :=
  ⟨(interrupted_stops_loop [0] ['0', '0', ':', '0', '0', ':', '0', '1'] 1 1
      (fun _ => 0) ⟨false, createMetatronCube, 0, 0, ['0'], ['0']⟩).2.1 7,
    (interrupted_stops_loop [0] ['0', '0', ':', '0', '0', ':', '0', '1'] 1 1
      (fun _ => 0) ⟨false, createMetatronCube, 0, 0, ['0'], ['0']⟩).2.2 2
      rfl (by decide)⟩

/-- Counterexample to C1 as stated: a non-numeric `--imem` value does not
fall back to 1 GB; the unguarded `stoi` call throws `invalid_argument`, which
is uncaught, so the process terminates instead of continuing. -/
theorem memSizeFlag_cex :
    stoi ['a', 'b', 'c'] = .error .invalidArgument ∧
    memSizeFlag ['a', 'b', 'c'] ≠ .ok 1 := by
  constructor <;> decide

/-- C1 (amended): a non-numeric (or out-of-range) memory size entered at the
interactive prompt falls back to the default of 1 GB and the program
continues; a non-numeric `--imem`/`-m` value instead reaches an unguarded
`stoi`, whose exception propagates uncaught and terminates the process. -/
theorem memSize_fallback (input : List Char) (e : StoiError)
    (h : stoi input = .error e) :
    memSizeInteractive input = 1 ∧ memSizeFlag input = .error e := by
  constructor
  · unfold memSizeInteractive
    by_cases hi : input.isEmpty
    · rw [if_pos hi]
    · rw [if_neg hi, h]
  · exact h

/-- Witness for C1 (amended) at the non-numeric input "x". -/
theorem memSize_fallback_witness :
    memSizeInteractive ['x'] = 1 ∧
    memSizeFlag ['x'] = .error .invalidArgument :=
  memSize_fallback ['x'] .invalidArgument (by decide)

theorem findExisting_all_none (fs : FS) :
    ∀ (rest : List (List Char)) (name : List Char), fs name = none →
      (∀ n ∈ rest, fs n = none) → findExisting fs name rest = none := by
  intro rest
  induction rest with
  | nil =>
      intro name hname _
      unfold findExisting
      rw [hname]
      rfl
  | cons n r ih =>
      intro name hname hrest
      unfold findExisting
      rw [hname]
      show findExisting fs n r = none
      exact ih n (hrest n (List.mem_cons_self _ _))
        (fun m hm => hrest m (List.mem_cons_of_mem _ hm))

theorem findExisting_some (fs : FS) :
    ∀ (rest : List (List Char)) (name out : List Char),
      findExisting fs name rest = some out → (fs out).isSome := by
  intro rest
  induction rest with
  | nil =>
      intro name out h
      unfold findExisting at h
      by_cases hs : (fs name).isSome
      · rw [if_pos hs] at h
        rw [← Option.some.inj h]
        exact hs
      · rw [if_neg hs] at h
        exact absurd h (by simp)
  | cons n r ih =>
      intro name out h
      unfold findExisting at h
      by_cases hs : (fs name).isSome
      · rw [if_pos hs] at h
        rw [← Option.some.inj h]
        exact hs
      · rw [if_neg hs] at h
        exact ih n out h

/-- Counterexample to C2 as stated: the WiFi broadcaster does not terminate
when the entered text-file name does not exist — it re-prompts, and once a
later input names an existing file it proceeds to the broadcast phase. -/
theorem file_not_found_cex :
    fsOnlyB ['a', '.', 't', 'x', 't'] = none ∧
    broadcastIntention fsOnlyB ['a', '.', 't', 'x', 't'] [['b']] =
      some ['b', 'h', 'i'] := by
  constructor <;> decide

/-- C2 (amended): a file that does not exist or cannot be opened terminates
the process in the repeater (`readFileContents` exits; this covers both the
`--file` and `--file2` paths); the WiFi broadcaster however does not
terminate on a missing text file: it keeps re-prompting and never reaches the
broadcast phase while no entered name opens. -/
theorem file_not_found_spec (fs : FS) (name : List Char) (h : fs name = none) :
    readFileContents fs name = .error () ∧
    (∀ (first : List Char) (rest : List (List Char)),
      containsTxt first = true → fs first = none →
      (∀ n ∈ rest, fs n = none) →
      broadcastIntention fs first rest = none) := by
  constructor
  · unfold readFileContents
    rw [h]
  · intro first rest htxt hfirst hrest
    unfold broadcastIntention
    rw [if_pos htxt, findExisting_all_none fs rest first hfirst hrest]

/-- Witness for C2 at the empty file system. -/
theorem file_not_found_spec_witness :
    readFileContents (fun _ => none) ['f'] = .error () ∧
    broadcastIntention (fun _ => none) ['a', '.', 't', 'x', 't'] [] = none := by
  have h := file_not_found_spec (fun _ => none) ['f'] rfl
  exact ⟨h.1, h.2 ['a', '.', 't', 'x', 't'] [] (by decide) rfl
    (fun n hn => absurd hn (List.not_mem_nil n))⟩

/-- Counterexample to C5 as stated: when the input names an existing `.txt`
file, the payload is not the literal entered string — the file's lines are
appended to the file-name string itself, so the broadcast payload is
"a.txthi", not "a.txt". -/
theorem broadcast_payload_cex :
    broadcastIntention fsATxt ['a', '.', 't', 'x', 't'] [] =
      some ['a', '.', 't', 'x', 't', 'h', 'i'] ∧
    (broadcastDatagram ['a', '.', 't', 'x', 't', 'h', 'i']).payload ≠
      ['a', '.', 't', 'x', 't'] := by
  constructor <;> decide

/-- C5 (amended): every UDP datagram the broadcaster sends is addressed to
255.255.255.255 port 11111.  The payload is the literal entered intention
string whenever that string does not contain ".txt" or ".TXT"; when it does,
the payload is instead the accepted file name with the file's
newline-stripped lines appended. -/
theorem broadcastDatagram_spec :
    (∀ intent : List Char, (broadcastDatagram intent).addr = BROADCAST_ADDR ∧
      (broadcastDatagram intent).port = 11111) ∧
    (∀ (fs : FS) (first : List Char) (rest : List (List Char)),
      containsTxt first = false →
      broadcastIntention fs first rest = some first) ∧
    (∀ (fs : FS) (first : List Char) (rest : List (List Char))
        (payload : List Char),
      containsTxt first = true →
      broadcastIntention fs first rest = some payload →
      ∃ name, (fs name).isSome ∧
        payload = name ++ concatLines ((fs name).getD [])) := by
  refine ⟨fun intent => ⟨rfl, rfl⟩, ?_, ?_⟩
  · intro fs first rest h
    unfold broadcastIntention
    rw [if_neg (by simp [h])]
  · intro fs first rest payload htxt hbi
    unfold broadcastIntention at hbi
    rw [if_pos htxt] at hbi
    cases hfe : findExisting fs first rest with
    | none =>
        rw [hfe] at hbi
        exact absurd hbi (by simp)
    | some name =>
        rw [hfe] at hbi
        refine ⟨name, findExisting_some fs rest first name hfe, ?_⟩
        exact (Option.some.inj hbi).symm

/-- Witness for C5 (amended): a plain intention and a .txt intention. -/
theorem broadcastDatagram_spec_witness :
    ((broadcastDatagram ['o', 'm']).addr = BROADCAST_ADDR ∧
      (broadcastDatagram ['o', 'm']).port = 11111) ∧
    broadcastIntention fsATxt ['o', 'm'] [] = some ['o', 'm'] ∧
    (∃ name, (fsATxt name).isSome ∧
      ['a', '.', 't', 'x', 't', 'h', 'i'] =
        name ++ concatLines ((fsATxt name).getD [])) :=
  ⟨broadcastDatagram_spec.1 ['o', 'm'],
    broadcastDatagram_spec.2.1 fsATxt ['o', 'm'] [] (by decide),
    broadcastDatagram_spec.2.2 fsATxt ['a', '.', 't', 'x', 't'] []
      ['a', '.', 't', 'x', 't', 'h', 'i'] (by decide) (by decide)⟩

end OccultMagick
